import Mathlib

/-!
# Verification of ChemEx core behaviours

Shallow embedding, in Lean 4, of the parts of the ChemEx repository that the
checked properties are about:

* `chemex/parameters/helper.py` — merging of per-experiment parameter sets;
* `chemex/experiments/cpmg_hn_dq_zq.py` — CPMG phase-cycle selection;
* `chemex/containers/cest.py` — CEST profile containers: residuals, filter,
  Monte-Carlo and bootstrap resampling;
* `chemex/nmr/spin_system.py` — the spin-system identity model (atoms, groups,
  spins, spin systems, parsing, matching and completion).

Floating point numbers are modelled by `ℚ`; Python strings by `String` /
`List Char` (ASCII semantics); NumPy random draws are modelled as explicit
argument lists constrained to their support.
-/

namespace ChemEx

/-! ## Parameter merging (`chemex/parameters/helper.py`, `merge`)

An `lmfit` parameter is modelled by its `vary` flag together with its payload
(value); `merge` only ever inspects the `vary` attribute.  A Python `dict` of
parameters keyed by name is modelled as an association list in insertion
order; overwriting an existing key keeps its position, as Python does. -/

structure FitParam where
  vary : Bool
  value : ℚ
  deriving Repr, DecidableEq

/-- Replace the payload of the first binding of `name`, keeping its position
(the behaviour of `d[name] = param` on an existing Python dict key). -/
def updateAssoc (l : List (String × FitParam)) (name : String) (p : FitParam) :
    List (String × FitParam) :=
  match l with
  | [] => []
  | (n, q) :: rest =>
      if n = name then (n, p) :: rest else (n, q) :: updateAssoc rest name p

/-- Association-list lookup (Python `name in d` / `d[name]`). -/
def lookupAssoc (l : List (String × FitParam)) (name : String) :
    Option FitParam :=
  match l with
  | [] => none
  | (n, q) :: rest => if n = name then some q else lookupAssoc rest name

/-- One step of the `merge` loop body:

    if name in params_ and params_[name].vary:
        continue
    params_[name] = param
-/
def mergeStep (acc : List (String × FitParam)) (entry : String × FitParam) :
    List (String × FitParam) :=
  match lookupAssoc acc entry.1 with
  | some q => if q.vary then acc else updateAssoc acc entry.1 entry.2
  | none => acc ++ [entry]

/-- `merge(params_list)` from `chemex/parameters/helper.py`: iterate over all
parameter sets in order, keeping an existing entry only when it varies. -/
def merge (paramsList : List (List (String × FitParam))) :
    List (String × FitParam) :=
  paramsList.flatten.foldl mergeStep []

/-- All payloads bound to `name` across the input sets, in input order. -/
def occurrences (paramsList : List (List (String × FitParam)))
    (name : String) : List FitParam :=
  (paramsList.flatten.filter (fun e => e.1 = name)).map (·.2)

/-! ## CPMG phase-cycle selection (`chemex/experiments/cpmg_hn_dq_zq.py`) -/

/-- `ncycs_to_nu_cpmgs` for a single positive cycle count: ν_CPMG = ncyc / time_t2. -/
def nuCpmg (timeT2 : ℚ) (ncyc : ℕ) : ℚ := (ncyc : ℚ) / timeT2

/-- The trinary regime split of `PulseSeq._get_phases`: choose the pair of
constant phase lists from ν_CPMG, with boundaries 51.0 and 255.0. -/
def selectPhases (nu : ℚ) : List ℕ × List ℕ :=
  if nu < 51 then ([0, 1, 0, 1], [1, 0, 1, 0])
  else if nu < 255 then ([0], [1])
  else ([0, 1, 0, 1, 1, 0, 1, 0], [1, 0, 1, 0, 0, 1, 0, 1])

/-- `np.take(cp_phases, np.flip(np.arange(2 * ncyc)), mode="wrap")`:
entry `k` of the result is `cp_phases[(2*ncyc - 1 - k) % len]`, i.e. the
phase list wrapped to length `2*ncyc` and then reversed. -/
def wrapFlip (cp : List ℕ) (ncyc : ℕ) : List ℕ :=
  ((List.range (2 * ncyc)).map (fun j => cp.getD (j % cp.length) 0)).reverse

/-- `PulseSeq._get_phases(ncyc)`. -/
def getPhases (timeT2 : ℚ) (ncyc : ℕ) : List ℕ × List ℕ :=
  let nu := nuCpmg timeT2 ncyc
  let cp := selectPhases nu
  (wrapFlip cp.1 ncyc, wrapFlip cp.2 ncyc)

/-! ## CEST profile containers (`chemex/containers/cest.py`)

A point of `CestData.points` (NumPy record `(offsets, intensities, errors)`)
becomes a record of three rationals; the parallel NumPy boolean arrays
`refs` and `mask` become lists of booleans of the same length. -/

structure CestPoint where
  offset : ℚ
  intensity : ℚ
  error : ℚ
  deriving Repr, DecidableEq

instance : Inhabited CestPoint := ⟨⟨0, 0, 0⟩⟩

structure CestData where
  points : List CestPoint
  refs : List Bool
  mask : List Bool
  filterOffsets : List (ℚ × ℚ)
  deriving Repr, DecidableEq

/-- `self.data.points[self.data.mask]`: the points kept by the mask. -/
def maskedPoints (d : CestData) : List CestPoint :=
  ((d.points.zip d.mask).filter (·.2)).map (·.1)

/-- Python's `%` on floats (here rationals): result has the sign of the
divisor; for `y > 0` this is `x - y*⌊x/y⌋ ∈ [0, y)`. -/
def pymod (x y : ℚ) : ℚ := x - y * ⌊x / y⌋

/-- `(offsets_ + 0.5 * sw_dante) % sw_dante - 0.5 * sw_dante` when a DANTE
sweep width is configured, the identity otherwise. -/
def wrapDante (sw : Option ℚ) (x : ℚ) : ℚ :=
  match sw with
  | none => x
  | some s => pymod (x + 0.5 * s) s - 0.5 * s

/-- The per-window exclusion test `abs(offsets_) < filter_bandwidth * 0.5`
applied to `offset - cs_offset - filter_offset` (optionally DANTE-wrapped). -/
def insideWindow (csOffset : ℚ) (sw : Option ℚ) (w : ℚ × ℚ) (p : CestPoint) :
    Bool :=
  |wrapDante sw (p.offset - csOffset - w.1)| < w.2 * 0.5

/-- One iteration of the window loop in `CestData.filter`:
`self.mask[mask_filter] = False`. -/
def maskStep (csOffset : ℚ) (sw : Option ℚ) (pts : List CestPoint)
    (mask : List Bool) (w : ℚ × ℚ) : List Bool :=
  (mask.zip pts).map (fun mp => if insideWindow csOffset sw w mp.2 then false else mp.1)

/-- `CestData.filter(cs_offset, sw_dante)`: clear the mask of every point
lying strictly inside some configured `(filter_offset, filter_bandwidth)`
window. -/
def CestData.filter (d : CestData) (csOffset : ℚ) (swDante : Option ℚ) :
    CestData :=
  { d with mask := d.filterOffsets.foldl (maskStep csOffset swDante d.points) d.mask }

/-- `indexes[self.refs & self.mask]`: unmasked reference-point indices. -/
def CestData.pool1 (d : CestData) : List ℕ :=
  (List.range d.points.length).filter
    (fun i => d.refs.getD i false && d.mask.getD i false)

/-- `indexes[~self.refs & self.mask]`: unmasked non-reference indices. -/
def CestData.pool2 (d : CestData) : List ℕ :=
  (List.range d.points.length).filter
    (fun i => !d.refs.getD i false && d.mask.getD i false)

/-- `CestData.bootstrap`: NumPy's stratified draws with replacement are
modelled by explicit index lists `draw1` (from `pool1`) and `draw2` (from
`pool2`); as in the source, the indices are concatenated, sorted, and used
to index `points`, while `refs` and `mask` are kept (deep-copied) as is. -/
def CestData.bootstrap (d : CestData) (draw1 draw2 : List ℕ) : CestData :=
  let bs := if d.pool1 ≠ [] then draw1 ++ draw2 else draw2
  { d with points := (bs.insertionSort (· ≤ ·)).map (fun i => d.points.getD i default) }

/-- NumPy addition of two 1-d arrays: elementwise on equal lengths,
broadcast when one side has length 1, error (`none`) otherwise. -/
def pyBroadcastAdd (a b : List ℚ) : Option (List ℚ) :=
  if a.length = b.length then some (List.zipWith (· + ·) a b)
  else if a.length = 1 then some (b.map (fun x => a.headD 0 + x))
  else if b.length = 1 then some (a.map (fun x => x + b.headD 0))
  else none

/-- NumPy field assignment `points["intensities"] = xs`: elementwise on
equal lengths, broadcast for a length-1 value. -/
def assignIntensities (pts : List CestPoint) (xs : List ℚ) :
    Option (List CestPoint) :=
  if xs.length = pts.length then
    some (List.zipWith (fun p x => { p with intensity := x }) pts xs)
  else if xs.length = 1 then
    some (pts.map (fun p => { p with intensity := xs.headD 0 }))
  else none

/-- `CestData.monte_carlo(intensities_ref)`: the standard-normal draw
`np.random.randn(len(points))` is modelled by an explicit list `g`;
`noise = g * errors`, and the data's intensities are replaced by
`intensities_ref + noise`. -/
def CestData.monteCarlo (d : CestData) (intensitiesRef g : List ℚ) :
    Option CestData :=
  let noise := List.zipWith (· * ·) g (d.points.map (·.error))
  match pyBroadcastAdd intensitiesRef noise with
  | none => none
  | some newInt =>
      match assignIntensities d.points newInt with
      | none => none
      | some pts => some { d with points := pts }

/-- Modelled from the spec: `chemex.containers.helper.get_scale` is not under
`src/`; the spec describes it as the closed-form least-squares scale factor
between the calculated curve and the measured intensities ("not a free
parameter — closed-form optimal scale given fixed shape"), weighted by the
measurement errors. -/
def getScale (intensities errors calculated : List ℚ) : ℚ :=
  (List.zipWith3 (fun i e c => c * i / e ^ 2) intensities errors calculated).sum /
    (List.zipWith (fun e c => c ^ 2 / e ^ 2) errors calculated).sum

/-- A CEST profile: its data plus its bound pulse sequence.  The pulse
sequence's `calculate(offsets, par_values)` is modelled as a per-offset
function of an abstract parameter vector `P` (CEST curves are computed
pointwise in the offset). -/
structure CestProfile (P : Type) where
  name : String
  data : CestData
  pulseSeq : P → ℚ → ℚ

/-- `CestProfile.calculate(params, offsets=None)`: evaluate the pulse
sequence at the unmasked offsets, compute the scale factor against the
unmasked measured points, then rescale (optionally at substitute offsets). -/
def CestProfile.calculate {P : Type} (prof : CestProfile P) (params : P)
    (offsets? : Option (List ℚ)) : List ℚ :=
  let data := maskedPoints prof.data
  let calc1 := data.map (fun p => prof.pulseSeq params p.offset)
  let scale := getScale (data.map (·.intensity)) (data.map (·.error)) calc1
  let calculated :=
    match offsets? with
    | none => calc1
    | some os => os.map (prof.pulseSeq params)
  calculated.map (fun c => scale * c)

/-- `CestProfile.residuals(params)`:
`(self.calculate(params) - data["intensities"]) / data["errors"]` over the
unmasked points. -/
def CestProfile.residuals {P : Type} (prof : CestProfile P) (params : P) :
    List ℚ :=
  List.zipWith (fun c p => (c - p.intensity) / p.error)
    (prof.calculate params none) (maskedPoints prof.data)

/-- `CestProfile.monte_carlo(params)`: resample the data around the
calculated reference intensities, keeping everything else. -/
def CestProfile.monteCarlo {P : Type} (prof : CestProfile P) (params : P)
    (g : List ℚ) : Option (CestProfile P) :=
  match prof.data.monteCarlo (prof.calculate params none) g with
  | none => none
  | some d => some { prof with data := d }

/-- `CestProfile.bootstrap()`. -/
def CestProfile.bootstrap {P : Type} (prof : CestProfile P)
    (draw1 draw2 : List ℕ) : CestProfile P :=
  { prof with data := prof.data.bootstrap draw1 draw2 }

/-! ## The spin-system identity model (`chemex/nmr/spin_system.py`)

Python strings are modelled as `List Char` with ASCII semantics for
`str.upper`, `str.strip`, and the regular expressions `[0-9]`, `[0-9]+` and
`[HCNQM]` used by the parser.  All functions are kernel-computable. -/

/-- ASCII lower → upper pairs, modelling `str.upper`. -/
def lcUc : List (Char × Char) :=
  [('a', 'A'), ('b', 'B'), ('c', 'C'), ('d', 'D'), ('e', 'E'), ('f', 'F'),
   ('g', 'G'), ('h', 'H'), ('i', 'I'), ('j', 'J'), ('k', 'K'), ('l', 'L'),
   ('m', 'M'), ('n', 'N'), ('o', 'O'), ('p', 'P'), ('q', 'Q'), ('r', 'R'),
   ('s', 'S'), ('t', 'T'), ('u', 'U'), ('v', 'V'), ('w', 'W'), ('x', 'X'),
   ('y', 'Y'), ('z', 'Z')]

def toUpperC (c : Char) : Char :=
  match lcUc.lookup c with
  | some u => u
  | none => c

def upperL (l : List Char) : List Char := l.map toUpperC

/-- Whitespace characters stripped by Python's `str.strip()`. -/
def isWSChar (c : Char) : Bool :=
  c = ' ' || c = '\t' || c = '\n' || c = '\r' || c = '\x0b' || c = '\x0c'

def frontStrip (l : List Char) : List Char := l.dropWhile isWSChar

/-- `str.strip()`: drop leading and trailing whitespace. -/
def stripL (l : List Char) : List Char :=
  ((frontStrip l).reverse |> frontStrip).reverse

/-- `name.strip().upper()`, the normalisation applied on entry of every
constructor in `spin_system.py`. -/
def pyNorm (l : List Char) : List Char := upperL (stripL l)

/-- The character class of the regular expression `[HCNQM]`. -/
def isHCNQM (c : Char) : Bool :=
  c = 'H' || c = 'C' || c = 'N' || c = 'Q' || c = 'M'

/-- The character class of the regular expressions `[0-9]` / `[0-9]+`. -/
def isDigitC (c : Char) : Bool :=
  c = '0' || c = '1' || c = '2' || c = '3' || c = '4' ||
  c = '5' || c = '6' || c = '7' || c = '8' || c = '9'

/-- Decimal digit characters (used by `natChars`). -/
def digitC : ℕ → Char
  | 0 => '0' | 1 => '1' | 2 => '2' | 3 => '3' | 4 => '4'
  | 5 => '5' | 6 => '6' | 7 => '7' | 8 => '8' | 9 => '9'
  | _ + 10 => '0'

/-- Fuel-driven decimal printing (kernel-computable). -/
def natCharsAux : ℕ → ℕ → List Char
  | 0, _ => []
  | fuel + 1, n =>
      if n < 10 then [digitC n]
      else natCharsAux fuel (n / 10) ++ [digitC (n % 10)]

/-- Decimal representation of a natural number (Python's `f"{number}"`
for a non-negative int). -/
def natChars (n : ℕ) : List Char := natCharsAux (n + 1) n

/-- Decimal representation of an integer. -/
def intChars (n : ℤ) : List Char :=
  if n < 0 then '-' :: natChars n.natAbs else natChars n.toNat

/-- Python's `int` on a string of decimal digits. -/
def ofDigits (ds : List Char) : ℕ :=
  ds.foldl (fun a c => 10 * a + (c.toNat - 48)) 0

/-- `str.startswith`: `startsWith pre l` holds when `l` starts with `pre`. -/
def startsWith : List Char → List Char → Bool
  | [], _ => true
  | _ :: _, [] => false
  | a :: as, b :: bs => a == b && startsWith as bs

/-- `"x".split("-")` on character lists (Python semantics: splitting the
empty string yields one empty token). -/
def splitDash : List Char → List (List Char)
  | [] => [[]]
  | c :: rest =>
      if c = '-' then [] :: splitDash rest
      else
        match splitDash rest with
        | [] => [[c]]
        | t :: ts => (c :: t) :: ts

/-- Association lookup on string keys (Python `dict.get`). -/
def lkp : List (List Char × List Char) → List Char → Option (List Char)
  | [], _ => none
  | (k, v) :: rest, key => if k = key then some v else lkp rest key

/-- `AAA_TO_A`: 3-letter to 1-letter amino-acid codes. -/
def AAA : List (List Char × List Char) :=
  ([("ALA", "A"), ("ARG", "R"), ("ASN", "N"), ("ASP", "D"), ("CYS", "C"),
    ("GLN", "Q"), ("GLU", "E"), ("GLY", "G"), ("HIS", "H"), ("ILE", "I"),
    ("LEU", "L"), ("LYS", "K"), ("MET", "M"), ("PHE", "F"), ("PRO", "P"),
    ("SER", "S"), ("THR", "T"), ("TRP", "W"), ("TYR", "Y"), ("VAL", "V")] :
      List (String × String)).map (fun p => (p.1.data, p.2.data))

def aaaGet (key : List Char) : List Char :=
  match lkp AAA key with
  | some v => v
  | none => key

/-- The apostrophe character (appears in the atom spelling `C'`). -/
def apo : Char := Char.ofNat 39

/-- `CORRECT_ATOM_NAME`: alternative atom spellings. -/
def CORRECT : List (List Char × List Char) :=
  [("HN".data, "H".data), (['C', apo], "C".data), ("CO".data, "C".data)]

def correctAtom (key : List Char) : List Char :=
  match lkp CORRECT key with
  | some v => v
  | none => key

/-- `STANDARD_ATOM_NAMES`. -/
def STANDARD : List (List Char) :=
  (["C", "CA", "CB", "CD", "CD1", "CD2", "CE", "CE1", "CE2", "CE3", "CG",
    "CG1", "CG2", "CH2", "CQD", "CQE", "CQG", "CZ", "CZ2", "CZ3", "H", "H2",
    "H3", "HA", "HA2", "HA3", "HB", "HB1", "HB2", "HB3", "HD", "HD1", "HD11",
    "HD12", "HD13", "HD2", "HD21", "HD22", "HD23", "HD3", "HE", "HE1", "HE2",
    "HE21", "HE22", "HE3", "HG", "HG1", "HG11", "HG12", "HG13", "HG2", "HG21",
    "HG22", "HG23", "HG3", "HH", "HH1", "HH11", "HH12", "HH2", "HH21", "HH22",
    "HZ", "HZ1", "HZ2", "HZ3", "MB", "MD", "MD1", "MD2", "ME", "MG", "MG1",
    "MG2", "MZ", "N", "ND1", "ND2", "NE", "NE1", "NE2", "NH", "NH1", "NH2",
    "NQH", "NZ", "QA", "QB", "QD", "QD2", "QE", "QE2", "QG", "QG1", "QH1",
    "QH2", "QMD", "QMG", "QQH", "QR", "QZ"] : List String).map String.data

/-- An atom: its normalised name (the `nucleus` tag, derived from the first
letter, plays no role in the verified properties and is omitted). -/
structure Atom where
  name : List Char
  deriving Repr, DecidableEq

/-- `Atom(name)`: strip/uppercase, then correct alternative spellings. -/
def mkAtom (raw : List Char) : Atom := ⟨correctAtom (pyNorm raw)⟩

/-- `Atom.match`: `other.name.startswith(self.name)`. -/
def Atom.match (pat other : Atom) : Bool := startsWith pat.name other.name

/-- `Group.NO_NUMBER`. -/
def noNumber : ℤ := -100000000

structure Group where
  symbol : List Char
  number : ℤ
  suffix : List Char
  name : List Char
  deriving Repr, DecidableEq

/-- `f"{symbol}{number}{suffix}"` with the number omitted when unset. -/
def groupName (sym : List Char) (num : ℤ) (suf : List Char) : List Char :=
  sym ++ (if num = noNumber then [] else intChars num) ++ suf

/-- `Group(name)`: strip/uppercase, split at the first digit run
(`search("[0-9]+", ...)`), normalise a 3-letter amino-acid symbol, and
rebuild the printed name. -/
def mkGroup (raw : List Char) : Group :=
  match (pyNorm raw).findIdx? isDigitC with
  | none =>
      ⟨aaaGet (pyNorm raw), noNumber, [],
        groupName (aaaGet (pyNorm raw)) noNumber []⟩
  | some s =>
      ⟨aaaGet ((pyNorm raw).take s),
        (ofDigits (((pyNorm raw).drop s).takeWhile isDigitC) : ℕ),
        (pyNorm raw).drop (s + (((pyNorm raw).drop s).takeWhile isDigitC).length),
        groupName (aaaGet ((pyNorm raw).take s))
          ((ofDigits (((pyNorm raw).drop s).takeWhile isDigitC) : ℕ))
          ((pyNorm raw).drop
            (s + (((pyNorm raw).drop s).takeWhile isDigitC).length))⟩

/-- `Group.match`: each field of the pattern must equal the candidate's or
be unset. -/
def Group.match (pat other : Group) : Bool :=
  let symbol := other.symbol == pat.symbol || pat.symbol.isEmpty
  let number := other.number == pat.number || pat.number == noNumber
  let suffix := other.suffix == pat.suffix || pat.suffix.isEmpty
  number && symbol && suffix

/-- A spin: its group and atom, plus the printed name *cached at
construction time* (`self.name = self.get_name()` in `Spin.__init__`;
`Spin.__str__` returns this cached value and it is NOT recomputed when the
atom attribute is later reassigned). -/
structure Spin where
  name : List Char
  group : Group
  atom : Atom
  deriving Repr, DecidableEq

/-- `Spin.split_group_atom`. -/
def splitGroupAtom (u : List Char) : Group × Atom :=
  if u = ['?'] then (mkGroup [], mkAtom [])
  else
    match (u.drop ((u.findIdx? isDigitC).getD 0)).findIdx? isHCNQM with
    | none =>
        if u ∈ STANDARD then (mkGroup [], mkAtom u) else (mkGroup u, mkAtom [])
    | some k =>
        (mkGroup (u.take ((u.findIdx? isDigitC).getD 0 + k)),
          mkAtom (u.drop ((u.findIdx? isDigitC).getD 0 + k)))

/-- The group of a parsed spin: the carry-over group is inherited when the
parsed group is empty and the carry-over group is truthy. -/
def mkSpinGroup (raw : List Char) (carry : Option Group) : Group :=
  if (splitGroupAtom (pyNorm raw)).1.name = [] then
    match carry with
    | some cg => if cg.name = [] then (splitGroupAtom (pyNorm raw)).1 else cg
    | none => (splitGroupAtom (pyNorm raw)).1
  else (splitGroupAtom (pyNorm raw)).1

/-- `Spin(name, group_for_completion)`. -/
def mkSpin (raw : List Char) (carry : Option Group) : Spin :=
  { name := (mkSpinGroup raw carry).name ++ (splitGroupAtom (pyNorm raw)).2.name,
    group := mkSpinGroup raw carry,
    atom := (splitGroupAtom (pyNorm raw)).2 }

/-- `ALIASES = "isx"`. -/
def ALIASES : List Char := ['i', 's', 'x']

def parseGo : List (Char × List Char) → Option Group → List (Char × Spin)
  | [], _ => []
  | (al, tok) :: rest, lastG =>
      let s := mkSpin tok lastG
      (al, s) :: parseGo rest (some s.group)

/-- `SpinSystem.parse_spin_system`: split on "-", zip with the aliases, and
carry each spin's group over to the next token. -/
def parseSpinSystem (u : List Char) : List (Char × Spin) :=
  if u = [] then [] else parseGo (ALIASES.zip (splitDash u)) none

def spins2nameGo : List Spin → Group → List (List Char)
  | [], _ => []
  | s :: rest, lastG =>
      (if s.group.name = lastG.name then s.atom.name else s.name) ::
        spins2nameGo rest s.group

/-- `SpinSystem.spins2name`: print each spin, omitting the group when it
equals the previous spin's group (`Group.__eq__` compares names); note the
use of the *cached* `Spin.name` for the full form. -/
def spins2name (spins : List Spin) : List Char :=
  List.intercalate ['-'] (spins2nameGo spins (mkGroup []))

structure SpinSystem where
  spins : List (Char × Spin)
  name : List Char
  deriving Repr, DecidableEq

/-- `SpinSystem(name)`. -/
def mkSpinSystem (raw : List Char) : SpinSystem :=
  { spins := parseSpinSystem (pyNorm raw),
    name := spins2name ((parseSpinSystem (pyNorm raw)).map (·.2)) }

/-! ### `SpinSystem.complete` and its in-place mutation

`complete` reassigns `spin.atom` on the *live* `Spin` objects fetched from
`self.spins` (or on the shared `last_spin` fallback).  The embedding makes
the object graph explicit: a reference is either an alias into the
receiver's dictionary or the single local `Spin("")` object. -/

/-- Modelled from the spec: `chemex.nmr.liouvillian.Basis` is not under
`src/`; the spec describes it as declaring "which physical nuclei occupy
which algebraic roles", so it is modelled as the ordered alias → nucleus
letter mapping `basis.atoms` that `complete` iterates over. -/
structure Basis where
  atoms : List (Char × List Char)

inductive SpinRef where
  | ofAlias (a : Char)
  | init
  deriving Repr, DecidableEq

/-- The mutable state during `complete`: the receiver's spins dictionary
and the local `last_spin = Spin("")` object. -/
structure CompleteState where
  spins : List (Char × Spin)
  initSpin : Spin
  deriving Repr, DecidableEq

def lookupSpin : List (Char × Spin) → Char → Option Spin
  | [], _ => none
  | (k, s) :: rest, key => if k = key then some s else lookupSpin rest key

def derefSpin (st : CompleteState) : SpinRef → Spin
  | .ofAlias a => (lookupSpin st.spins a).getD st.initSpin
  | .init => st.initSpin

/-- `spin.atom = Atom(...)`: reassign the atom attribute in place, leaving
the cached `spin.name` stale. -/
def setAtomAt (st : CompleteState) (r : SpinRef) (a : Atom) : CompleteState :=
  match r with
  | .ofAlias key =>
      let newSpins :=
        st.spins.map
          (fun ks => if ks.1 = key then (ks.1, { ks.2 with atom := a }) else ks)
      { st with spins := newSpins }
  | .init => { st with initSpin := { st.initSpin with atom := a } }

/-- The loop body of `complete` over `basis.atoms.items()`. -/
def completeLoop :
    List (Char × List Char) → CompleteState → SpinRef → List SpinRef →
      CompleteState × List SpinRef
  | [], st, _, out => (st, out.reverse)
  | (letter, batom) :: rest, st, lastRef, out =>
      let r := if (lookupSpin st.spins letter).isSome then SpinRef.ofAlias letter
               else lastRef
      let s := derefSpin st r
      let st' :=
        if startsWith (upperL batom) s.atom.name then st
        else setAtomAt st r (mkAtom (batom ++ s.atom.name.drop 1))
      completeLoop rest st' r (r :: out)

/-- `SpinSystem.complete(basis)`: returns the pair
(returned spin system, receiver after the call).  The returned system is
`SpinSystem(self.spins2name(spins))` computed on the post-loop object
states; the receiver keeps its original (now possibly stale) `name` but its
spins dictionary reflects the in-place atom mutations. -/
def SpinSystem.complete (ss : SpinSystem) (basis : Basis) :
    SpinSystem × SpinSystem :=
  let st0 : CompleteState := ⟨ss.spins, mkSpin [] none⟩
  let res := completeLoop basis.atoms st0 SpinRef.init []
  let finalSpins := res.2.map (derefSpin res.1)
  (mkSpinSystem (spins2name finalSpins), { spins := res.1.spins, name := ss.name })

/-- The printed name of a single parsed token: since a lone spin is printed
as its atom when its group is blank and as its cached full name otherwise,
both cases coincide with `group.name ++ atom.name`. -/
def normTok (u : List Char) : List Char :=
  (splitGroupAtom u).1.name ++ (splitGroupAtom u).2.name

/-- A character list fixed by `name.strip().upper()`. -/
def normal (l : List Char) : Prop := pyNorm l = l

/-- The survivor for one name after folding its occurrence list into an
accumulator holding the current binding (specification device for `merge`). -/
def mergeSpecAcc (cur : Option FitParam) (occs : List FitParam) :
    Option FitParam :=
  occs.foldl
    (fun acc p =>
      match acc with
      | some q => if q.vary then some q else some p
      | none => some p)
    cur

/-! ### Facts about `merge` -/

theorem lookupAssoc_append_one (l : List (String × FitParam))
    (e : String × FitParam) (name : String) :
    lookupAssoc (l ++ [e]) name =
      match lookupAssoc l name with
      | some q => some q
      | none => if e.1 = name then some e.2 else none := by
  induction l with
  | nil => cases e; simp [lookupAssoc]
  | cons hd tl ih =>
      by_cases hn : hd.1 = name
      · obtain ⟨n, q⟩ := hd
        simp only at hn
        simp [lookupAssoc, hn]
      · obtain ⟨n, q⟩ := hd
        simp only at hn
        simp only [List.cons_append, lookupAssoc, if_neg hn]
        exact ih

theorem lookupAssoc_updateAssoc_self (l : List (String × FitParam))
    (name : String) (p : FitParam) (h : (lookupAssoc l name).isSome) :
    lookupAssoc (updateAssoc l name p) name = some p := by
  induction l with
  | nil => simp [lookupAssoc] at h
  | cons hd tl ih =>
      obtain ⟨n, q⟩ := hd
      by_cases hn : n = name
      · simp [updateAssoc, lookupAssoc, hn]
      · simp only [lookupAssoc, if_neg hn] at h
        simp only [updateAssoc, if_neg hn, lookupAssoc]
        exact ih h

theorem lookupAssoc_updateAssoc_other (l : List (String × FitParam))
    (key name : String) (p : FitParam) (h : key ≠ name) :
    lookupAssoc (updateAssoc l key p) name = lookupAssoc l name := by
  induction l with
  | nil => simp [updateAssoc]
  | cons hd tl ih =>
      obtain ⟨n, q⟩ := hd
      by_cases hn : n = key
      · subst hn
        simp [updateAssoc, lookupAssoc, if_neg h]
      · simp only [updateAssoc, if_neg hn, lookupAssoc]
        by_cases hm : n = name
        · simp [hm]
        · rw [if_neg hm, if_neg hm]
          exact ih

theorem lookupAssoc_mergeStep_other (acc : List (String × FitParam))
    (e : String × FitParam) (name : String) (h : e.1 ≠ name) :
    lookupAssoc (mergeStep acc e) name = lookupAssoc acc name := by
  unfold mergeStep
  rcases h1 : lookupAssoc acc e.1 with _ | q
  · rw [lookupAssoc_append_one]
    rcases lookupAssoc acc name with _ | r
    · simp [if_neg h]
    · simp
  · by_cases hv : q.vary
    · simp [hv]
    · simp only [hv, Bool.false_eq_true, if_false]
      exact lookupAssoc_updateAssoc_other acc e.1 name e.2 h

theorem lookupAssoc_mergeStep_self (acc : List (String × FitParam))
    (e : String × FitParam) (name : String) (h : e.1 = name) :
    lookupAssoc (mergeStep acc e) name =
      match lookupAssoc acc name with
      | some q => if q.vary then some q else some e.2
      | none => some e.2 := by
  unfold mergeStep
  subst h
  rcases h1 : lookupAssoc acc e.1 with _ | q
  · rw [lookupAssoc_append_one, h1]
    simp
  · by_cases hv : q.vary
    · simp [hv, h1]
    · simp only [hv, Bool.false_eq_true, if_false]
      rw [lookupAssoc_updateAssoc_self acc e.1 e.2 (by rw [h1]; rfl)]

theorem merge_loop_invariant (entries : List (String × FitParam))
    (acc : List (String × FitParam)) (name : String) :
    lookupAssoc (entries.foldl mergeStep acc) name =
      mergeSpecAcc (lookupAssoc acc name)
        ((entries.filter (fun e => e.1 = name)).map (·.2)) := by
  induction entries generalizing acc with
  | nil => simp [mergeSpecAcc]
  | cons e rest ih =>
      simp only [List.foldl_cons]
      rw [ih (mergeStep acc e)]
      by_cases hname : e.1 = name
      · rw [lookupAssoc_mergeStep_self acc e name hname]
        rw [List.filter_cons, if_pos (decide_eq_true hname), List.map_cons]
        rcases lookupAssoc acc name with _ | q
        · simp [mergeSpecAcc]
        · by_cases hv : q.vary <;> simp [mergeSpecAcc, hv]
      · rw [lookupAssoc_mergeStep_other acc e name hname]
        simp [List.filter_cons, hname]

theorem mergeSpecAcc_of_vary (q : FitParam) (h : q.vary = true)
    (occs : List FitParam) : mergeSpecAcc (some q) occs = some q := by
  induction occs with
  | nil => rfl
  | cons p rest ih => simpa [mergeSpecAcc, h] using ih

theorem mergeSpecAcc_cons (p : FitParam) (occs : List FitParam) :
    mergeSpecAcc none (p :: occs) = mergeSpecAcc (some p) occs := rfl

theorem mergeSpecAcc_of_fixed (q : FitParam) (h : q.vary = false)
    (occs : List FitParam) (hne : occs ≠ []) :
    mergeSpecAcc (some q) occs = mergeSpecAcc none occs := by
  cases occs with
  | nil => exact absurd rfl hne
  | cons p rest => simp [mergeSpecAcc, h]

/-- Characterisation of the per-name survivor: the first occurrence that
varies, when some occurrence varies; the last occurrence otherwise. -/
theorem mergeSpecAcc_characterisation (occs : List FitParam) :
    mergeSpecAcc none occs =
      match occs.find? (·.vary) with
      | some p => some p
      | none => occs.getLast? := by
  induction occs with
  | nil => rfl
  | cons p rest ih =>
      rw [mergeSpecAcc_cons]
      by_cases hv : p.vary
      · rw [mergeSpecAcc_of_vary p hv rest,
          List.find?_cons_of_pos _ (by simpa using hv)]
      · rw [List.find?_cons_of_neg _ (by simpa using hv)]
        cases rest with
        | nil => simp [mergeSpecAcc]
        | cons r rest' =>
            rw [mergeSpecAcc_of_fixed p (by simpa using hv) (r :: rest')
              (List.cons_ne_nil r rest'), ih, List.getLast?_cons_cons]

theorem merge_lookup (paramsList : List (List (String × FitParam)))
    (name : String) :
    lookupAssoc (merge paramsList) name =
      match (occurrences paramsList name).find? (·.vary) with
      | some p => some p
      | none => (occurrences paramsList name).getLast? := by
  unfold merge
  rw [merge_loop_invariant paramsList.flatten [] name]
  exact mergeSpecAcc_characterisation _

/-- C1 (counterexample): when the same name is bound in two parameter sets
and neither occurrence varies, `merge` keeps the LAST occurrence, not the
first one: merging `{k: (fixed, 1)}` then `{k: (fixed, 2)}` yields value 2
for `k`, although the first occurrence has value 1. -/
theorem c1_counterexample :
    occurrences [[("k", ⟨false, 1⟩)], [("k", ⟨false, 2⟩)]] "k" =
      [⟨false, 1⟩, ⟨false, 2⟩] ∧
    lookupAssoc (merge [[("k", ⟨false, 1⟩)], [("k", ⟨false, 2⟩)]]) "k" =
      some ⟨false, 2⟩ := by
  constructor
  · rfl
  · rfl

/-- C1 (amended): for every sequence of parameter sets and every name that
occurs in them, the merged result keeps, for that name, the first occurrence
marked "vary" when at least one occurrence varies, and the LAST occurrence
when none vary.  In particular, when the same name is fixed in one input set
and varying in the other, the varying version is kept regardless of the
order of the two sets. -/
theorem c1_merge_policy (paramsList : List (List (String × FitParam)))
    (name : String) (h : occurrences paramsList name ≠ []) :
    (∀ p, (occurrences paramsList name).find? (·.vary) = some p →
        lookupAssoc (merge paramsList) name = some p) ∧
    ((occurrences paramsList name).find? (·.vary) = none →
        lookupAssoc (merge paramsList) name =
          (occurrences paramsList name).getLast?) ∧
    (∀ pv pf : FitParam, pv.vary = true → pf.vary = false →
        lookupAssoc (merge [[(name, pf)], [(name, pv)]]) name = some pv ∧
        lookupAssoc (merge [[(name, pv)], [(name, pf)]]) name = some pv) := by
  refine ⟨?_, ?_, ?_⟩
  · intro p hp
    rw [merge_lookup, hp]
  · intro hp
    rw [merge_lookup, hp]
  · intro pv pf hv hf
    constructor
    · rw [merge_lookup]
      simp [occurrences, List.find?, hv, hf]
    · rw [merge_lookup]
      simp [occurrences, List.find?, hv, hf]

/-- C1 (witness): instantiation of `c1_merge_policy` at a concrete pair of
parameter sets, one varying and one fixed occurrence of the same name. -/
theorem c1_merge_policy_witness :
    occurrences [[("k", ⟨false, 1⟩)], [("k", ⟨true, 2⟩)]] "k" ≠ [] ∧
    lookupAssoc (merge [[("k", ⟨false, 1⟩)], [("k", ⟨true, 2⟩)]]) "k" =
      some ⟨true, 2⟩ := by
  refine ⟨by decide, ?_⟩
  exact (c1_merge_policy [[("k", ⟨false, 1⟩)], [("k", ⟨true, 2⟩)]] "k"
    (by decide)).1 ⟨true, 2⟩ (by decide)

/-! ### Facts about the CPMG phase cycle -/

theorem wrapFlip_length (cp : List ℕ) (ncyc : ℕ) :
    (wrapFlip cp ncyc).length = 2 * ncyc := by
  simp [wrapFlip]

theorem wrapFlip_getD (cp : List ℕ) (ncyc k : ℕ) (hk : k < 2 * ncyc) :
    (wrapFlip cp ncyc).getD k 0 =
      cp.getD ((2 * ncyc - 1 - k) % cp.length) 0 := by
  unfold wrapFlip
  have hlen : ((List.range (2 * ncyc)).map
      (fun j => cp.getD (j % cp.length) 0)).length = 2 * ncyc := by simp
  have hk' : k < ((List.range (2 * ncyc)).map
      (fun j => cp.getD (j % cp.length) 0)).reverse.length := by
    simpa using hk
  rw [List.getD_eq_getElem _ _ hk', List.getElem_reverse]
  have h2 : 2 * ncyc - 1 - k < 2 * ncyc := by omega
  simp only [List.getElem_map, List.getElem_range, hlen]

theorem selectPhases_low (nu : ℚ) (h : nu < 51) :
    selectPhases nu = ([0, 1, 0, 1], [1, 0, 1, 0]) := by
  simp [selectPhases, h]

theorem selectPhases_mid (nu : ℚ) (h1 : 51 ≤ nu) (h2 : nu < 255) :
    selectPhases nu = ([0], [1]) := by
  simp [selectPhases, h2, not_lt.mpr h1]

theorem selectPhases_high (nu : ℚ) (h : 255 ≤ nu) :
    selectPhases nu = ([0, 1, 0, 1, 1, 0, 1, 0], [1, 0, 1, 0, 0, 1, 0, 1]) := by
  have h1 : ¬nu < 51 := not_lt.mpr (le_trans (by norm_num) h)
  have h2 : ¬nu < 255 := not_lt.mpr h
  simp [selectPhases, h1, h2]

/-- C5: the phase cycle of `cpmg_hn_dq_zq` is selected from
ν_CPMG = ncyc / time_t2 in three regimes with boundaries 51.0 and 255.0
(low: 4-phase lists; middle: single-phase lists; high: 8-phase lists), and
the chosen list is wrapped to length 2·ncyc and reversed
(entry k is `list[(2·ncyc − 1 − k) mod len]`).  In particular ν_CPMG = 40
selects the low-regime 4-phase lists, ν_CPMG = 150 the middle-regime
single-phase lists, and ν_CPMG = 300 the high-regime 8-phase lists. -/
theorem c5_phase_cycle (timeT2 : ℚ) (ncyc : ℕ) (hn : 0 < ncyc)
    (ht : 0 < timeT2) :
    (nuCpmg timeT2 ncyc < 51 →
      getPhases timeT2 ncyc = (wrapFlip [0, 1, 0, 1] ncyc, wrapFlip [1, 0, 1, 0] ncyc)) ∧
    (51 ≤ nuCpmg timeT2 ncyc → nuCpmg timeT2 ncyc < 255 →
      getPhases timeT2 ncyc = (wrapFlip [0] ncyc, wrapFlip [1] ncyc)) ∧
    (255 ≤ nuCpmg timeT2 ncyc →
      getPhases timeT2 ncyc =
        (wrapFlip [0, 1, 0, 1, 1, 0, 1, 0] ncyc, wrapFlip [1, 0, 1, 0, 0, 1, 0, 1] ncyc)) ∧
    (getPhases timeT2 ncyc).1.length = 2 * ncyc ∧
    (getPhases timeT2 ncyc).2.length = 2 * ncyc ∧
    (∀ k, k < 2 * ncyc →
      (getPhases timeT2 ncyc).1.getD k 0 =
        (selectPhases (nuCpmg timeT2 ncyc)).1.getD
          ((2 * ncyc - 1 - k) % (selectPhases (nuCpmg timeT2 ncyc)).1.length) 0) ∧
    nuCpmg 1 40 < 51 ∧ selectPhases (nuCpmg 1 40) = ([0, 1, 0, 1], [1, 0, 1, 0]) ∧
    51 ≤ nuCpmg 1 150 ∧ nuCpmg 1 150 < 255 ∧ selectPhases (nuCpmg 1 150) = ([0], [1]) ∧
    255 ≤ nuCpmg 1 300 ∧
    selectPhases (nuCpmg 1 300) = ([0, 1, 0, 1, 1, 0, 1, 0], [1, 0, 1, 0, 0, 1, 0, 1]) := by
  refine ⟨?_, ?_, ?_, ?_, ?_, ?_, ?_, ?_, ?_, ?_, ?_, ?_, ?_⟩
  · intro h
    simp only [getPhases, selectPhases_low _ h]
  · intro h1 h2
    simp only [getPhases, selectPhases_mid _ h1 h2]
  · intro h
    simp only [getPhases, selectPhases_high _ h]
  · exact wrapFlip_length _ _
  · exact wrapFlip_length _ _
  · intro k hk
    exact wrapFlip_getD _ _ _ hk
  · norm_num [nuCpmg]
  · exact selectPhases_low _ (by norm_num [nuCpmg])
  · norm_num [nuCpmg]
  · norm_num [nuCpmg]
  · exact selectPhases_mid _ (by norm_num [nuCpmg]) (by norm_num [nuCpmg])
  · norm_num [nuCpmg]
  · exact selectPhases_high _ (by norm_num [nuCpmg])

/-- C5 (witness): instantiation of `c5_phase_cycle` at time_t2 = 1, ncyc = 40
(ν_CPMG = 40, low regime). -/
theorem c5_phase_cycle_witness :
    (0 : ℕ) < 40 ∧ (0 : ℚ) < 1 ∧
    getPhases 1 40 = (wrapFlip [0, 1, 0, 1] 40, wrapFlip [1, 0, 1, 0] 40) := by
  refine ⟨by norm_num, by norm_num, ?_⟩
  exact (c5_phase_cycle 1 40 (by norm_num) (by norm_num)).1 (by norm_num [nuCpmg])

/-! ### Facts about residuals (claim C7) -/

theorem length_filter_zip_snd {α : Type} (pts : List α) (mask : List Bool)
    (h : mask.length = pts.length) :
    ((pts.zip mask).filter (·.2)).length = mask.count true := by
  induction pts generalizing mask with
  | nil =>
      cases mask with
      | nil => simp
      | cons m ms => simp at h
  | cons p ps ih =>
      cases mask with
      | nil => simp at h
      | cons m ms =>
          have h' : ms.length = ps.length := by simpa using h
          cases m with
          | false => simp [List.filter_cons, List.count_cons, ih ms h']
          | true => simp [List.filter_cons, List.count_cons, ih ms h']

theorem maskedPoints_length (d : CestData)
    (h : d.mask.length = d.points.length) :
    (maskedPoints d).length = d.mask.count true := by
  simp only [maskedPoints, List.length_map]
  exact length_filter_zip_snd d.points d.mask h

theorem calculate_length {P : Type} (prof : CestProfile P) (params : P) :
    (prof.calculate params none).length = (maskedPoints prof.data).length := by
  simp [CestProfile.calculate]

theorem residuals_length {P : Type} (prof : CestProfile P) (params : P) :
    (prof.residuals params).length = (maskedPoints prof.data).length := by
  simp [CestProfile.residuals, calculate_length]

/-- C7: the residual vector has one entry per currently-unmasked point;
entry j is `(scale·model(offset_j) − intensity_j)/error_j` for the j-th
unmasked point, with the scale factor computed from the unmasked points
only; and both the residual vector and the internally calculated curve are
entirely determined by the unmasked points (changing masked points cannot
affect them). -/
theorem c7_residuals {P : Type} (prof prof' : CestProfile P) (params : P)
    (hlen : prof.data.mask.length = prof.data.points.length)
    (hagree : maskedPoints prof'.data = maskedPoints prof.data)
    (hps : prof'.pulseSeq = prof.pulseSeq) :
    (prof.residuals params).length = prof.data.mask.count true ∧
    (∀ j, j < (maskedPoints prof.data).length →
      (prof.residuals params).getD j 0 =
        (getScale ((maskedPoints prof.data).map (·.intensity))
              ((maskedPoints prof.data).map (·.error))
              ((maskedPoints prof.data).map (fun p => prof.pulseSeq params p.offset)) *
            prof.pulseSeq params (((maskedPoints prof.data).getD j default).offset) -
          ((maskedPoints prof.data).getD j default).intensity) /
          ((maskedPoints prof.data).getD j default).error) ∧
    prof'.residuals params = prof.residuals params ∧
    prof'.calculate params none = prof.calculate params none := by
  refine ⟨?_, ?_, ?_, ?_⟩
  · rw [residuals_length, maskedPoints_length _ hlen]
  · intro j hj
    have hc : j < (prof.calculate params none).length := by
      rw [calculate_length]; exact hj
    have hr : j < (prof.residuals params).length := by
      rw [residuals_length]; exact hj
    rw [List.getD_eq_getElem _ _ hr]
    unfold CestProfile.residuals
    rw [List.getElem_zipWith]
    unfold CestProfile.calculate
    simp only [List.getElem_map]
    rw [List.getD_eq_getElem _ _ hj]
  · simp only [CestProfile.residuals, CestProfile.calculate, hagree, hps]
  · simp only [CestProfile.calculate, hagree, hps]

/-- C7 (witness): instantiation of `c7_residuals` at a concrete profile with
one masked point, compared against the same profile with a corrupted masked
point. -/
theorem c7_residuals_witness :
    (⟨"p", ⟨[⟨0, 1, 1⟩, ⟨2, 5, 1⟩], [true, false], [true, false], []⟩,
        fun _ o => o⟩ : CestProfile Unit).data.mask.length =
      (⟨"p", ⟨[⟨0, 1, 1⟩, ⟨2, 5, 1⟩], [true, false], [true, false], []⟩,
        fun _ o => o⟩ : CestProfile Unit).data.points.length ∧
    ((⟨"p", ⟨[⟨0, 1, 1⟩, ⟨2, 5, 1⟩], [true, false], [true, false], []⟩,
        fun _ o => o⟩ : CestProfile Unit).residuals ()).length =
      (⟨"p", ⟨[⟨0, 1, 1⟩, ⟨2, 5, 1⟩], [true, false], [true, false], []⟩,
        fun _ o => o⟩ : CestProfile Unit).data.mask.count true := by
  refine ⟨by decide, ?_⟩
  exact (c7_residuals
    (⟨"p", ⟨[⟨0, 1, 1⟩, ⟨2, 5, 1⟩], [true, false], [true, false], []⟩,
      fun _ o => o⟩ : CestProfile Unit)
    (⟨"p", ⟨[⟨0, 1, 1⟩, ⟨2, 99, 1⟩], [true, false], [true, false], []⟩,
      fun _ o => o⟩ : CestProfile Unit)
    () (by decide) (by decide) rfl).1

/-! ### Facts about CEST filtering (claim C10) -/

theorem maskStep_length (csOffset : ℚ) (sw : Option ℚ) (pts : List CestPoint)
    (mask : List Bool) (w : ℚ × ℚ) (h : mask.length = pts.length) :
    (maskStep csOffset sw pts mask w).length = pts.length := by
  simp [maskStep, h]

theorem maskStep_getD (csOffset : ℚ) (sw : Option ℚ) (pts : List CestPoint)
    (mask : List Bool) (w : ℚ × ℚ) (h : mask.length = pts.length) (i : ℕ)
    (hi : i < pts.length) :
    (maskStep csOffset sw pts mask w).getD i true =
      if insideWindow csOffset sw w (pts.getD i default) then false
      else mask.getD i true := by
  have hlen : i < (maskStep csOffset sw pts mask w).length := by
    rw [maskStep_length _ _ _ _ _ h]; exact hi
  have him : i < mask.length := by rw [h]; exact hi
  have hzip : i < (mask.zip pts).length := by
    simp [List.length_zip, h, hi]
  rw [List.getD_eq_getElem _ _ hlen]
  unfold maskStep
  rw [List.getElem_map, List.getElem_zip]
  rw [List.getD_eq_getElem _ _ hi, List.getD_eq_getElem _ _ him]

theorem filter_fold_getD (csOffset : ℚ) (sw : Option ℚ) (pts : List CestPoint)
    (ws : List (ℚ × ℚ)) (mask : List Bool) (h : mask.length = pts.length)
    (i : ℕ) (hi : i < pts.length) :
    (ws.foldl (maskStep csOffset sw pts) mask).getD i true =
      if ws.any (fun w => insideWindow csOffset sw w (pts.getD i default)) then
        false
      else mask.getD i true := by
  induction ws generalizing mask with
  | nil => simp
  | cons w ws ih =>
      rw [List.foldl_cons,
        ih (maskStep csOffset sw pts mask w) (maskStep_length _ _ _ _ _ h),
        maskStep_getD _ _ _ _ _ h _ hi, List.any_cons]
      by_cases hw : insideWindow csOffset sw w (pts.getD i default)
      · simp only [hw, if_true, Bool.true_or]
        by_cases hrest : ws.any (fun w => insideWindow csOffset sw w (pts.getD i default)) <;>
          simp [hrest]
      · simp only [hw, if_false]
        simp only [Bool.or_eq_true]
        by_cases hrest : ws.any (fun w => insideWindow csOffset sw w (pts.getD i default)) = true
        · simp [hrest, hw]
        · simp [hrest, hw]

/-- C10: for every CEST data set and every point index: if the point is not
strictly inside any configured `(filter_offset, bandwidth)` window — in
particular when `|offset − cs_offset − filter_offset|` equals exactly
`0.5·bandwidth` for each window, since the exclusion test is a strict
inequality — `filter` leaves its mask entry unchanged; if it lies strictly
inside some window (the offset being wrapped modulo the DANTE sweep width
when one is configured), its mask entry is set to false. -/
theorem c10_filter (d : CestData) (csOffset : ℚ) (swDante : Option ℚ) (i : ℕ)
    (hi : i < d.points.length) (hm : d.mask.length = d.points.length) :
    ((∀ w ∈ d.filterOffsets,
        ¬|wrapDante swDante ((d.points.getD i default).offset - csOffset - w.1)| <
          w.2 * 0.5) →
      (d.filter csOffset swDante).mask.getD i true = d.mask.getD i true) ∧
    (∀ w : ℚ × ℚ,
      |wrapDante swDante ((d.points.getD i default).offset - csOffset - w.1)| =
        w.2 * 0.5 →
      ¬|wrapDante swDante ((d.points.getD i default).offset - csOffset - w.1)| <
        w.2 * 0.5) ∧
    ((∃ w ∈ d.filterOffsets,
        |wrapDante swDante ((d.points.getD i default).offset - csOffset - w.1)| <
          w.2 * 0.5) →
      (d.filter csOffset swDante).mask.getD i true = false) := by
  refine ⟨?_, ?_, ?_⟩
  · intro hout
    unfold CestData.filter
    rw [filter_fold_getD _ _ _ _ _ hm _ hi]
    have hany : d.filterOffsets.any
        (fun w => insideWindow csOffset swDante w (d.points.getD i default)) = false := by
      rw [List.any_eq_false]
      intro w hw
      have := hout w hw
      simp only [insideWindow]
      simpa using this
    rw [hany]
    simp
  · intro w heq
    rw [heq]
    exact lt_irrefl _
  · intro hin
    unfold CestData.filter
    rw [filter_fold_getD _ _ _ _ _ hm _ hi]
    obtain ⟨w, hw, hlt⟩ := hin
    have hany : d.filterOffsets.any
        (fun w => insideWindow csOffset swDante w (d.points.getD i default)) = true := by
      rw [List.any_eq_true]
      exact ⟨w, hw, by simp only [insideWindow]; simpa using hlt⟩
    rw [hany]
    simp

/-- C10 (witness): instantiation of `c10_filter` at a concrete data set with
a single window `(0, 2)` and a point exactly at the window edge, which keeps
its mask entry. -/
theorem c10_filter_witness :
    (0 : ℕ) < (⟨[⟨1, 0, 1⟩], [false], [true], [(0, 2)]⟩ : CestData).points.length ∧
    ((⟨[⟨1, 0, 1⟩], [false], [true], [(0, 2)]⟩ : CestData).filter 0 none).mask.getD 0 true =
      (⟨[⟨1, 0, 1⟩], [false], [true], [(0, 2)]⟩ : CestData).mask.getD 0 true := by
  refine ⟨by decide, ?_⟩
  refine (c10_filter (⟨[⟨1, 0, 1⟩], [false], [true], [(0, 2)]⟩ : CestData) 0 none 0
    (by decide) (by decide)).1 ?_
  intro w hw
  simp only [List.mem_singleton] at hw
  subst hw
  norm_num [wrapDante, List.getD_cons_zero]

/-! ### Facts about bootstrap resampling (claim C2) -/

/-- C2 (counterexample): the resampling pools are taken from the *unmasked*
points (`refs & mask`, `~refs & mask`).  For a data set with M = 1 reference
point and N = 1 non-reference point whose reference point is masked out
(e.g. `filter_ref_planes = true`), the bootstrap replicate has only 1 point
(not N + M = 2) and contains no reference point. -/
theorem c2_counterexample :
    (⟨[⟨10000, 5, 1⟩, ⟨0, 1, 1⟩], [true, false], [false, true], []⟩ :
        CestData).refs.count true = 1 ∧
    (⟨[⟨10000, 5, 1⟩, ⟨0, 1, 1⟩], [true, false], [false, true], []⟩ :
        CestData).refs.count false = 1 ∧
    (⟨[⟨10000, 5, 1⟩, ⟨0, 1, 1⟩], [true, false], [false, true], []⟩ :
        CestData).pool1 = [] ∧
    (⟨[⟨10000, 5, 1⟩, ⟨0, 1, 1⟩], [true, false], [false, true], []⟩ :
        CestData).pool2 = [1] ∧
    ((⟨[⟨10000, 5, 1⟩, ⟨0, 1, 1⟩], [true, false], [false, true], []⟩ :
        CestData).bootstrap [] [1]).points = [⟨0, 1, 1⟩] := by
  refine ⟨rfl, rfl, by decide, by decide, ?_⟩
  decide

/-- C2 (amended): for every CEST data set with at least one *unmasked*
reference point, and index draws with replacement from the unmasked
reference pool and the unmasked non-reference pool (each draw the size of
its pool), the bootstrap replicate has exactly `pool1.length + pool2.length`
points (the number of unmasked points), contains at least one reference
point, every resampled point comes from one of the two pools, and the drawn
indices are used in sorted (original) order. -/
theorem c2_bootstrap (d : CestData) (draw1 draw2 : List ℕ)
    (h1len : draw1.length = d.pool1.length)
    (h1mem : ∀ i ∈ draw1, i ∈ d.pool1)
    (h2len : draw2.length = d.pool2.length)
    (h2mem : ∀ i ∈ draw2, i ∈ d.pool2)
    (href : d.pool1 ≠ []) :
    (d.bootstrap draw1 draw2).points.length = d.pool1.length + d.pool2.length ∧
    (∃ i ∈ d.pool1, d.points.getD i default ∈ (d.bootstrap draw1 draw2).points) ∧
    (∀ p ∈ (d.bootstrap draw1 draw2).points,
      ∃ i, (i ∈ d.pool1 ∨ i ∈ d.pool2) ∧ p = d.points.getD i default) ∧
    (d.bootstrap draw1 draw2).points =
      ((draw1 ++ draw2).insertionSort (· ≤ ·)).map (fun i => d.points.getD i default) ∧
    List.Sorted (· ≤ ·) ((draw1 ++ draw2).insertionSort (· ≤ ·)) ∧
    (d.bootstrap draw1 draw2).refs = d.refs ∧
    (d.bootstrap draw1 draw2).mask = d.mask := by
  have hbs : (d.bootstrap draw1 draw2).points =
      ((draw1 ++ draw2).insertionSort (· ≤ ·)).map (fun i => d.points.getD i default) := by
    unfold CestData.bootstrap
    rw [if_pos href]
  have hperm : List.Perm ((draw1 ++ draw2).insertionSort (· ≤ ·)) (draw1 ++ draw2) :=
    List.perm_insertionSort _ _
  refine ⟨?_, ?_, ?_, hbs, List.sorted_insertionSort _ _, rfl, rfl⟩
  · rw [hbs, List.length_map, hperm.length_eq, List.length_append, h1len, h2len]
  · have hne : draw1 ≠ [] := by
      intro hempty
      apply href
      have : d.pool1.length = 0 := by rw [← h1len, hempty]; rfl
      exact List.eq_nil_of_length_eq_zero this
    obtain ⟨i, hi⟩ := List.exists_mem_of_ne_nil draw1 hne
    refine ⟨i, h1mem i hi, ?_⟩
    rw [hbs]
    exact List.mem_map_of_mem _ (hperm.mem_iff.mpr (List.mem_append_left _ hi))
  · intro p hp
    rw [hbs] at hp
    obtain ⟨i, hi, hpi⟩ := List.mem_map.mp hp
    have : i ∈ draw1 ++ draw2 := hperm.mem_iff.mp hi
    rcases List.mem_append.mp this with h | h
    · exact ⟨i, Or.inl (h1mem i h), hpi.symm⟩
    · exact ⟨i, Or.inr (h2mem i h), hpi.symm⟩

/-- C2 (witness): instantiation of `c2_bootstrap` at a concrete data set
with one unmasked reference point and one unmasked non-reference point. -/
theorem c2_bootstrap_witness :
    ([0] : List ℕ).length =
      (⟨[⟨10000, 5, 1⟩, ⟨0, 1, 1⟩], [true, false], [true, true], []⟩ :
          CestData).pool1.length ∧
    ((⟨[⟨10000, 5, 1⟩, ⟨0, 1, 1⟩], [true, false], [true, true], []⟩ :
          CestData).bootstrap [0] [1]).points.length =
      (⟨[⟨10000, 5, 1⟩, ⟨0, 1, 1⟩], [true, false], [true, true], []⟩ :
          CestData).pool1.length +
      (⟨[⟨10000, 5, 1⟩, ⟨0, 1, 1⟩], [true, false], [true, true], []⟩ :
          CestData).pool2.length := by
  refine ⟨by decide, ?_⟩
  exact (c2_bootstrap
    (⟨[⟨10000, 5, 1⟩, ⟨0, 1, 1⟩], [true, false], [true, true], []⟩ : CestData)
    [0] [1] (by decide) (by decide) (by decide) (by decide) (by decide)).1

/-! ### Facts about Monte-Carlo resampling (claim C6) -/

/-- C6 (counterexample): `CestProfile.monte_carlo` adds the calculated
reference intensities — computed at the *unmasked* points only — to a
noise array over *all* points; when a point is masked the lengths differ
(here 2 vs 3) and the NumPy addition fails, so no resampled profile with
the claimed properties is produced. -/
theorem c6_counterexample :
    ((⟨"p", ⟨[⟨0, 1, 1⟩, ⟨1, 2, 1⟩, ⟨2, 3, 1⟩], [false, false, false],
        [false, true, true], []⟩, fun _ o => o⟩ :
      CestProfile Unit).monteCarlo () [1, 1, 1]).isNone = true := by
  rfl

theorem maskedPoints_of_all_true (d : CestData)
    (hmask : ∀ m ∈ d.mask, m = true) (hlen : d.mask.length = d.points.length) :
    maskedPoints d = d.points := by
  unfold maskedPoints
  have : ∀ (pts : List CestPoint) (mask : List Bool),
      (∀ m ∈ mask, m = true) → mask.length = pts.length →
      ((pts.zip mask).filter (·.2)).map (·.1) = pts := by
    intro pts
    induction pts with
    | nil => intro mask _ _; simp
    | cons p ps ih =>
        intro mask hm hl
        cases mask with
        | nil => simp at hl
        | cons m ms =>
            have hmt : m = true := hm m (List.mem_cons_self m ms)
            subst hmt
            rw [List.zip_cons_cons, List.filter_cons_of_pos (by rfl), List.map_cons,
              ih ms (fun x hx => hm x (List.mem_cons_of_mem _ hx)) (by simpa using hl)]
  exact this d.points d.mask hmask hlen

theorem zipWith_setIntensity_error (pts : List CestPoint) (xs : List ℚ)
    (h : xs.length = pts.length) :
    (List.zipWith (fun p x => { p with intensity := x }) pts xs).map (·.error) =
      pts.map (·.error) := by
  induction pts generalizing xs with
  | nil => simp
  | cons p ps ih =>
      cases xs with
      | nil => simp at h
      | cons x rest =>
          simp only [List.zipWith_cons_cons, List.map_cons]
          rw [ih rest (by simpa using h)]

theorem zipWith_setIntensity_offset (pts : List CestPoint) (xs : List ℚ)
    (h : xs.length = pts.length) :
    (List.zipWith (fun p x => { p with intensity := x }) pts xs).map (·.offset) =
      pts.map (·.offset) := by
  induction pts generalizing xs with
  | nil => simp
  | cons p ps ih =>
      cases xs with
      | nil => simp at h
      | cons x rest =>
          simp only [List.zipWith_cons_cons, List.map_cons]
          rw [ih rest (by simpa using h)]

theorem zipWith_setIntensity_intensity (pts : List CestPoint) (xs : List ℚ)
    (h : xs.length = pts.length) :
    (List.zipWith (fun p x => { p with intensity := x }) pts xs).map (·.intensity) =
      xs := by
  induction pts generalizing xs with
  | nil => cases xs with
      | nil => simp
      | cons x rest => simp at h
  | cons p ps ih =>
      cases xs with
      | nil => simp at h
      | cons x rest =>
          simp only [List.zipWith_cons_cons, List.map_cons]
          rw [ih rest (by simpa using h)]

/-- C6 (amended): for every CEST profile *all of whose points are unmasked*
and every parameter vector, Monte-Carlo resampling succeeds and returns a
profile whose per-point offsets and uncertainties are identical to the
original profile's, and whose intensities equal the model-calculated
reference intensities plus the noise draw scaled by each point's reported
error; only the intensities change — mask, reference flags, name and pulse
sequence are untouched (so repeated calls with different noise draws keep
the errors identical). -/
theorem c6_monte_carlo {P : Type} (prof : CestProfile P) (params : P)
    (g : List ℚ) (hmask : ∀ m ∈ prof.data.mask, m = true)
    (hlen : prof.data.mask.length = prof.data.points.length)
    (hg : g.length = prof.data.points.length) :
    ∃ result, prof.monteCarlo params g = some result ∧
      result.data.points.map (·.error) = prof.data.points.map (·.error) ∧
      result.data.points.map (·.offset) = prof.data.points.map (·.offset) ∧
      result.data.points.map (·.intensity) =
        List.zipWith (· + ·) (prof.calculate params none)
          (List.zipWith (· * ·) g (prof.data.points.map (·.error))) ∧
      result.data.mask = prof.data.mask ∧
      result.data.refs = prof.data.refs ∧
      result.name = prof.name ∧
      result.pulseSeq = prof.pulseSeq := by
  have hmp : maskedPoints prof.data = prof.data.points :=
    maskedPoints_of_all_true prof.data hmask hlen
  have hcalc : (prof.calculate params none).length = prof.data.points.length := by
    rw [calculate_length, hmp]
  have hnoise : (List.zipWith (· * ·) g (prof.data.points.map (·.error))).length =
      prof.data.points.length := by
    rw [List.length_zipWith, List.length_map, hg, min_self]
  have hsum : (List.zipWith (· + ·) (prof.calculate params none)
      (List.zipWith (· * ·) g (prof.data.points.map (·.error)))).length =
      prof.data.points.length := by
    rw [List.length_zipWith, hcalc, hnoise, min_self]
  have hbroadcast : pyBroadcastAdd (prof.calculate params none)
      (List.zipWith (· * ·) g (prof.data.points.map (·.error))) =
      some (List.zipWith (· + ·) (prof.calculate params none)
        (List.zipWith (· * ·) g (prof.data.points.map (·.error)))) := by
    unfold pyBroadcastAdd
    rw [if_pos (by rw [hcalc, hnoise])]
  have hassign : assignIntensities prof.data.points
      (List.zipWith (· + ·) (prof.calculate params none)
        (List.zipWith (· * ·) g (prof.data.points.map (·.error)))) =
      some (List.zipWith (fun p x => { p with intensity := x }) prof.data.points
        (List.zipWith (· + ·) (prof.calculate params none)
          (List.zipWith (· * ·) g (prof.data.points.map (·.error))))) := by
    unfold assignIntensities
    rw [if_pos hsum]
  refine ⟨{ prof with data := { prof.data with
      points := List.zipWith (fun p x => { p with intensity := x }) prof.data.points
        (List.zipWith (· + ·) (prof.calculate params none)
          (List.zipWith (· * ·) g (prof.data.points.map (·.error)))) } },
    ?_, ?_, ?_, ?_, rfl, rfl, rfl, rfl⟩
  · simp only [CestProfile.monteCarlo, CestData.monteCarlo, hbroadcast, hassign]
  · exact zipWith_setIntensity_error _ _ hsum
  · exact zipWith_setIntensity_offset _ _ hsum
  · exact zipWith_setIntensity_intensity _ _ hsum

/-! ### Facts about `SpinSystem.complete` (claims C3 and C4)

`complete` reassigns `spin.atom` on the live objects of `self.spins`, but
`self.spins2name(spins)` prints a spin whose group differs from its
predecessor's through the *cached* `Spin.name`, which the mutation does not
refresh.  Consequently (i) the returned system does not receive the
completed atom whenever the spin has a non-empty group, and an explicitly
specified atom that does not start with the basis letter is rewritten
(contradicting C3), and (ii) the receiver is mutated in place
(contradicting C4). -/

/-- C3 (evaluation at the failing input): completing the wildcarded spin
system `G23` against a basis declaring nucleus `n` for alias `i` returns
`G23` again — the wildcarded atom is NOT restored to `N` (the completed
atom is lost because `spins2name` prints the stale cached `Spin.name`) —
and completing the explicit atom `CA` against the same basis returns `NA`,
altering an explicitly-specified atom. -/
theorem c3_complete_eval :
    ((mkSpinSystem "G23".data).complete ⟨[('i', ['n'])]⟩).1.name = "G23".data ∧
    ((mkSpinSystem "G23".data).complete
        ⟨[('i', ['n'])]⟩).1.spins.map (fun p => p.2.atom.name) = [[]] ∧
    ((mkSpinSystem "CA".data).complete ⟨[('i', ['n'])]⟩).1.name = "NA".data := by
  refine ⟨by decide, by decide, by decide⟩

/-- C4 (evaluation at the failing input): `complete` mutates the receiver:
after completing `G23` against a basis declaring nucleus `n` for alias `i`,
the receiver's spin for alias `i` carries atom `N` whereas it carried the
blank atom before the call, so the receiver's spins dictionary changed. -/
theorem c4_complete_mutates_receiver :
    ((mkSpinSystem "G23".data).complete ⟨[('i', ['n'])]⟩).2.spins ≠
      (mkSpinSystem "G23".data).spins ∧
    (lookupSpin ((mkSpinSystem "G23".data).complete
        ⟨[('i', ['n'])]⟩).2.spins 'i').map (·.atom.name) = some "N".data ∧
    (lookupSpin (mkSpinSystem "G23".data).spins 'i').map (·.atom.name) =
      some [] := by
  refine ⟨by decide, by decide, by decide⟩

/-! ### Facts about wildcard matching (claim C9) -/

/-- C9 (counterexample): the claim quantifies over every pair in which some
pattern field is blank and the candidate's is concrete; but `Group.match`
also requires the remaining fields to agree, so the pattern `G` (blank
number) does not match the candidate `A23` (concrete number 23). -/
theorem c9_counterexample :
    (mkGroup "G".data).number = noNumber ∧
    (mkGroup "A23".data).number = 23 ∧
    Group.match (mkGroup "G".data) (mkGroup "A23".data) = false := by
  refine ⟨by decide, by decide, by decide⟩

/-- C9 (amended): Group and Atom matching is an asymmetric wildcard
containment test, not equality: a blank pattern field (Group
symbol/number/suffix, or Atom name) accepts any concrete candidate field
provided the remaining pattern fields match; a concrete pattern field never
matches a blank candidate field. -/
theorem c9_wildcard_match (pat cand : Group) (patA candA : Atom) :
    (pat.symbol = [] → (cand.number = pat.number ∨ pat.number = noNumber) →
      (cand.suffix = pat.suffix ∨ pat.suffix = []) →
      Group.match pat cand = true) ∧
    (pat.number = noNumber → (cand.symbol = pat.symbol ∨ pat.symbol = []) →
      (cand.suffix = pat.suffix ∨ pat.suffix = []) →
      Group.match pat cand = true) ∧
    (pat.suffix = [] → (cand.symbol = pat.symbol ∨ pat.symbol = []) →
      (cand.number = pat.number ∨ pat.number = noNumber) →
      Group.match pat cand = true) ∧
    (pat.symbol ≠ [] → cand.symbol = [] → Group.match pat cand = false) ∧
    (pat.number ≠ noNumber → cand.number = noNumber →
      Group.match pat cand = false) ∧
    (pat.suffix ≠ [] → cand.suffix = [] → Group.match pat cand = false) ∧
    (patA.name = [] → Atom.match patA candA = true) ∧
    (patA.name ≠ [] → candA.name = [] → Atom.match patA candA = false) := by
  refine ⟨?_, ?_, ?_, ?_, ?_, ?_, ?_, ?_⟩
  · intro hs hn hsub
    simp only [Group.match, Bool.and_eq_true, Bool.or_eq_true, beq_iff_eq,
      List.isEmpty_iff]
    exact ⟨⟨hn, Or.inr hs⟩, hsub⟩
  · intro hn hs hsub
    simp only [Group.match, Bool.and_eq_true, Bool.or_eq_true, beq_iff_eq,
      List.isEmpty_iff]
    exact ⟨⟨Or.inr hn, hs⟩, hsub⟩
  · intro hsub hs hn
    simp only [Group.match, Bool.and_eq_true, Bool.or_eq_true, beq_iff_eq,
      List.isEmpty_iff]
    exact ⟨⟨hn, hs⟩, Or.inr hsub⟩
  · intro hs hc
    have hempty : pat.symbol.isEmpty = false := by
      cases h : pat.symbol with
      | nil => exact absurd h hs
      | cons a as => rfl
    have hbeq : (cand.symbol == pat.symbol) = false := by
      rw [hc]
      cases h : pat.symbol with
      | nil => exact absurd h hs
      | cons a as => rfl
    simp [Group.match, hempty, hbeq]
  · intro hn hc
    have h1 : (cand.number == pat.number) = false := by
      rw [hc]; exact beq_eq_false_iff_ne.mpr (fun h => hn h.symm)
    have h2 : (pat.number == noNumber) = false := beq_eq_false_iff_ne.mpr hn
    simp [Group.match, h1, h2]
  · intro hsub hc
    have hempty : pat.suffix.isEmpty = false := by
      cases h : pat.suffix with
      | nil => exact absurd h hsub
      | cons a as => rfl
    have hbeq : (cand.suffix == pat.suffix) = false := by
      rw [hc]
      cases h : pat.suffix with
      | nil => exact absurd h hsub
      | cons a as => rfl
    simp [Group.match, hempty, hbeq]
  · intro hp
    simp only [Atom.match, hp, startsWith]
  · intro hp hc
    cases hname : patA.name with
    | nil => exact absurd hname hp
    | cons a as => simp only [Atom.match, hname, hc, startsWith]

/-- C9 (witness): instantiation of `c9_wildcard_match` at the blank-number
pattern `23` (parsed from a bare residue number) against candidate `G23`,
and at blank/concrete atoms. -/
theorem c9_wildcard_match_witness :
    (mkGroup "G".data).suffix = [] ∧
    Group.match (mkGroup "G".data) (mkGroup "GLY".data) = true ∧
    (mkAtom []).name = [] ∧
    Atom.match (mkAtom []) (mkAtom "HN".data) = true := by
  refine ⟨by decide, ?_, by decide, ?_⟩
  · exact (c9_wildcard_match (mkGroup "G".data) (mkGroup "GLY".data)
      (mkAtom []) (mkAtom "HN".data)).2.2.1 (by decide) (by decide) (by decide)
  · exact (c9_wildcard_match (mkGroup "G".data) (mkGroup "GLY".data)
      (mkAtom []) (mkAtom "HN".data)).2.2.2.2.2.2.1 (by decide)

/-! ### Re-parsing the printed name (claim C8) -/

/-- C8 (counterexample): the parsed name is NOT always a fixed point of
parsing.  For the label `G1N-G1H02` the second spin's atom `H02` is printed
without its group (the group `G1` repeats); re-parsing `G1N-H02` turns the
token `H02` into a *group* (`H` + number 02), whose normalised name drops
the leading zero, so the printed name changes to `G1N-H2`. -/
theorem c8_counterexample :
    (mkSpinSystem "G1N-G1H02".data).name = "G1N-H02".data ∧
    (mkSpinSystem (mkSpinSystem "G1N-G1H02".data).name).name = "G1N-H2".data ∧
    (mkSpinSystem (mkSpinSystem "G1N-G1H02".data).name).name ≠
      (mkSpinSystem "G1N-G1H02".data).name := by
  refine ⟨by decide, by decide, by decide⟩

/-- C6 (witness): instantiation of `c6_monte_carlo` at a concrete
all-unmasked profile and noise draw. -/
theorem c6_monte_carlo_witness :
    (∀ m ∈ (⟨"p", ⟨[⟨0, 1, 1⟩, ⟨1, 2, 1⟩], [false, false], [true, true], []⟩,
        fun _ o => o⟩ : CestProfile Unit).data.mask, m = true) ∧
    (∃ result,
      (⟨"p", ⟨[⟨0, 1, 1⟩, ⟨1, 2, 1⟩], [false, false], [true, true], []⟩,
          fun _ o => o⟩ : CestProfile Unit).monteCarlo () [1, 2] = some result ∧
      result.data.points.map (·.error) =
        (⟨"p", ⟨[⟨0, 1, 1⟩, ⟨1, 2, 1⟩], [false, false], [true, true], []⟩,
            fun _ o => o⟩ : CestProfile Unit).data.points.map (·.error)) := by
  refine ⟨by decide, ?_⟩
  obtain ⟨result, h1, h2, _⟩ := c6_monte_carlo
    (⟨"p", ⟨[⟨0, 1, 1⟩, ⟨1, 2, 1⟩], [false, false], [true, true], []⟩,
        fun _ o => o⟩ : CestProfile Unit) () [1, 2]
    (by decide) (by decide) (by decide)
  exact ⟨result, h1, h2⟩

/-! ### String normalisation lemmas

Groundwork for the idempotence of parsing (claim C8): `strip`/`upper` are
idempotent and commute, and `normal` (being fixed by `strip().upper()`) is
characterised by chars being uppercase-fixed and the edges not being
whitespace. -/

theorem lookup_pair_mem {α β : Type} [BEq α] [LawfulBEq α]
    {l : List (α × β)} {a : α} {b : β} (h : l.lookup a = some b) :
    (a, b) ∈ l := by
  induction l with
  | nil => simp [List.lookup] at h
  | cons p rest ih =>
      obtain ⟨k, v⟩ := p
      rw [List.lookup] at h
      cases hk : a == k with
      | true =>
          rw [hk] at h
          simp only at h
          have hak : a = k := eq_of_beq hk
          subst hak
          cases h
          exact List.mem_cons_self _ _
      | false =>
          rw [hk] at h
          simp only at h
          exact List.mem_cons_of_mem _ (ih h)

theorem toUpperC_idem (c : Char) : toUpperC (toUpperC c) = toUpperC c := by
  rcases h : lcUc.lookup c with _ | u
  · simp [toUpperC, h]
  · have hm : (c, u) ∈ lcUc := lookup_pair_mem h
    have hfact : ∀ p ∈ lcUc, lcUc.lookup p.2 = none := by decide
    have hval : lcUc.lookup u = none := hfact (c, u) hm
    simp [toUpperC, h, hval]

theorem isWS_toUpperC (c : Char) : isWSChar (toUpperC c) = isWSChar c := by
  rcases h : lcUc.lookup c with _ | u
  · simp [toUpperC, h]
  · have hm : (c, u) ∈ lcUc := lookup_pair_mem h
    have hfact : ∀ p ∈ lcUc, isWSChar p.1 = false ∧ isWSChar p.2 = false := by
      decide
    have h1 := (hfact (c, u) hm).1
    have h2 := (hfact (c, u) hm).2
    simp [toUpperC, h, h1, h2]

theorem upperL_idem (l : List Char) : upperL (upperL l) = upperL l := by
  unfold upperL
  rw [List.map_map]
  exact List.map_congr_left (fun c _ => toUpperC_idem c)

theorem frontStrip_head {l : List Char} {c : Char} {cs : List Char}
    (h : frontStrip l = c :: cs) : isWSChar c = false := by
  induction l with
  | nil => simp [frontStrip] at h
  | cons a as ih =>
      rw [frontStrip, List.dropWhile_cons] at h
      by_cases ha : isWSChar a
      · rw [if_pos ha] at h
        exact ih h
      · rw [if_neg ha] at h
        cases h
        simpa using ha

theorem frontStrip_of_head {l : List Char}
    (h : ∀ c ∈ l.head?, isWSChar c = false) : frontStrip l = l := by
  cases l with
  | nil => rfl
  | cons a as =>
      have ha : isWSChar a = false := h a rfl
      simp [frontStrip, List.dropWhile_cons, ha]

theorem length_frontStrip_le (l : List Char) :
    (frontStrip l).length ≤ l.length := by
  induction l with
  | nil => simp [frontStrip]
  | cons a as ih =>
      rw [frontStrip, List.dropWhile_cons]
      by_cases ha : isWSChar a
      · rw [if_pos ha]
        exact le_trans ih (by simp)
      · rw [if_neg ha]

theorem getLast?_frontStrip {l : List Char} (h : frontStrip l ≠ []) :
    (frontStrip l).getLast? = l.getLast? := by
  induction l with
  | nil => simp [frontStrip] at h
  | cons a as ih =>
      by_cases ha : isWSChar a
      · have hfs : frontStrip (a :: as) = frontStrip as := by
          simp [frontStrip, List.dropWhile_cons, ha]
        rw [hfs] at h ⊢
        rw [ih h]
        have has : as ≠ [] := by
          rintro rfl
          simp [frontStrip] at h
        cases as with
        | nil => exact absurd rfl has
        | cons b bs => rw [List.getLast?_cons_cons]
      · simp [frontStrip, List.dropWhile_cons, ha]

theorem stripL_head (l : List Char) :
    ∀ c ∈ (stripL l).head?, isWSChar c = false := by
  intro c hc
  unfold stripL at hc
  rw [List.head?_reverse] at hc
  rcases hD : frontStrip (frontStrip l).reverse with _ | ⟨d, ds⟩
  · rw [hD] at hc
    simp at hc
  · rw [hD] at hc
    rw [← hD] at hc
    rw [getLast?_frontStrip (by rw [hD]; exact List.cons_ne_nil d ds)] at hc
    rw [List.getLast?_reverse] at hc
    rcases hF : frontStrip l with _ | ⟨f, fs⟩
    · rw [hF] at hc
      simp at hc
    · rw [hF] at hc
      simp only [List.head?_cons, Option.mem_def, Option.some.injEq] at hc
      subst hc
      exact frontStrip_head hF

theorem stripL_last (l : List Char) :
    ∀ c ∈ (stripL l).getLast?, isWSChar c = false := by
  intro c hc
  unfold stripL at hc
  rw [List.getLast?_reverse] at hc
  rcases hD : frontStrip (frontStrip l).reverse with _ | ⟨d, ds⟩
  · rw [hD] at hc
    simp at hc
  · rw [hD] at hc
    simp only [List.head?_cons, Option.mem_def, Option.some.injEq] at hc
    subst hc
    exact frontStrip_head hD

theorem stripL_eq_self {l : List Char}
    (h1 : ∀ c ∈ l.head?, isWSChar c = false)
    (h2 : ∀ c ∈ l.getLast?, isWSChar c = false) : stripL l = l := by
  unfold stripL
  rw [frontStrip_of_head h1]
  have hr : frontStrip l.reverse = l.reverse := by
    apply frontStrip_of_head
    intro c hc
    rw [List.head?_reverse] at hc
    exact h2 c hc
  rw [hr, List.reverse_reverse]

theorem stripL_idem (l : List Char) : stripL (stripL l) = stripL l :=
  stripL_eq_self (stripL_head l) (stripL_last l)

theorem frontStrip_upperL (l : List Char) :
    frontStrip (upperL l) = upperL (frontStrip l) := by
  induction l with
  | nil => rfl
  | cons a as ih =>
      show frontStrip (toUpperC a :: upperL as) = _
      rw [frontStrip, List.dropWhile_cons, isWS_toUpperC]
      by_cases ha : isWSChar a
      · rw [if_pos ha]
        rw [frontStrip] at ih
        rw [ih]
        congr 1
        simp [frontStrip, List.dropWhile_cons, ha]
      · rw [if_neg ha]
        have : frontStrip (a :: as) = a :: as := by
          simp [frontStrip, List.dropWhile_cons, ha]
        rw [this]
        rfl

theorem stripL_upperL (l : List Char) :
    stripL (upperL l) = upperL (stripL l) := by
  show (frontStrip (frontStrip (upperL l)).reverse).reverse =
    upperL ((frontStrip (frontStrip l).reverse).reverse)
  rw [frontStrip_upperL]
  have h1 : (upperL (frontStrip l)).reverse = upperL ((frontStrip l).reverse) :=
    (List.map_reverse toUpperC (frontStrip l)).symm
  rw [h1, frontStrip_upperL]
  exact (List.map_reverse toUpperC (frontStrip (frontStrip l).reverse)).symm

theorem pyNorm_idem (l : List Char) : pyNorm (pyNorm l) = pyNorm l := by
  show upperL (stripL (upperL (stripL l))) = upperL (stripL l)
  rw [stripL_upperL, stripL_idem, upperL_idem]

theorem normal_pyNorm (l : List Char) : normal (pyNorm l) := pyNorm_idem l

theorem normal_nil : normal ([] : List Char) := rfl

theorem normal_stripL_eq {l : List Char} (h : normal l) : stripL l = l := by
  conv_lhs => rw [← h]
  show stripL (upperL (stripL l)) = l
  rw [stripL_upperL, stripL_idem]
  exact h

theorem normal_upperL_eq {l : List Char} (h : normal l) : upperL l = l := by
  conv_lhs => rw [← normal_stripL_eq h]
  exact h

theorem normal_head {l : List Char} (h : normal l) :
    ∀ c ∈ l.head?, isWSChar c = false := by
  intro c hc
  have := stripL_head l
  rw [normal_stripL_eq h] at this
  exact this c hc

theorem normal_last {l : List Char} (h : normal l) :
    ∀ c ∈ l.getLast?, isWSChar c = false := by
  intro c hc
  have := stripL_last l
  rw [normal_stripL_eq h] at this
  exact this c hc

theorem normal_mk {l : List Char} (hu : upperL l = l)
    (h1 : ∀ c ∈ l.head?, isWSChar c = false)
    (h2 : ∀ c ∈ l.getLast?, isWSChar c = false) : normal l := by
  show upperL (stripL l) = l
  rw [stripL_eq_self h1 h2, hu]

theorem normal_append {X Y : List Char} (hX : normal X) (hY : normal Y) :
    normal (X ++ Y) := by
  apply normal_mk
  · show List.map toUpperC (X ++ Y) = X ++ Y
    rw [List.map_append]
    rw [show List.map toUpperC X = X from normal_upperL_eq hX]
    rw [show List.map toUpperC Y = Y from normal_upperL_eq hY]
  · intro c hc
    rcases hX' : X with _ | ⟨a, as⟩
    · rw [hX', List.nil_append] at hc
      exact normal_head hY c hc
    · rw [hX'] at hc
      simp only [List.cons_append, List.head?_cons, Option.mem_def,
        Option.some.injEq] at hc
      subst hc
      apply normal_head hX
      rw [hX']
      rfl
  · intro c hc
    cases hY' : Y with
    | nil =>
        rw [hY', List.append_nil] at hc
        exact normal_last hX c hc
    | cons b bs =>
        have heq : (X ++ Y).getLast? = Y.getLast? := by
          rw [← List.head?_reverse, List.reverse_append, ← List.head?_reverse]
          cases hYr : Y.reverse with
          | nil =>
              exfalso
              have : Y = [] := by
                have := congrArg List.reverse hYr
                simpa using this
              rw [this] at hY'
              cases hY'
          | cons r rs => simp
        rw [heq] at hc
        exact normal_last hY c hc

/-! ### Character classes and decimal printing -/

theorem isDigitC_cases {c : Char} (h : isDigitC c = true) :
    c = '0' ∨ c = '1' ∨ c = '2' ∨ c = '3' ∨ c = '4' ∨ c = '5' ∨ c = '6' ∨
      c = '7' ∨ c = '8' ∨ c = '9' := by
  simp only [isDigitC, Bool.or_eq_true, decide_eq_true_eq] at h
  tauto

theorem isHCNQM_cases {c : Char} (h : isHCNQM c = true) :
    c = 'H' ∨ c = 'C' ∨ c = 'N' ∨ c = 'Q' ∨ c = 'M' := by
  simp only [isHCNQM, Bool.or_eq_true, decide_eq_true_eq] at h
  tauto

theorem digit_not_ws {c : Char} (h : isDigitC c = true) : isWSChar c = false := by
  rcases isDigitC_cases h with rfl|rfl|rfl|rfl|rfl|rfl|rfl|rfl|rfl|rfl <;> decide

theorem digit_upper {c : Char} (h : isDigitC c = true) : toUpperC c = c := by
  rcases isDigitC_cases h with rfl|rfl|rfl|rfl|rfl|rfl|rfl|rfl|rfl|rfl <;> decide

theorem digit_not_hcnqm {c : Char} (h : isDigitC c = true) :
    isHCNQM c = false := by
  rcases isDigitC_cases h with rfl|rfl|rfl|rfl|rfl|rfl|rfl|rfl|rfl|rfl <;> decide

theorem digit_not_dash {c : Char} (h : isDigitC c = true) : c ≠ '-' := by
  rcases isDigitC_cases h with rfl|rfl|rfl|rfl|rfl|rfl|rfl|rfl|rfl|rfl <;> decide

theorem hcnqm_not_ws {c : Char} (h : isHCNQM c = true) : isWSChar c = false := by
  rcases isHCNQM_cases h with rfl|rfl|rfl|rfl|rfl <;> decide

theorem hcnqm_upper {c : Char} (h : isHCNQM c = true) : toUpperC c = c := by
  rcases isHCNQM_cases h with rfl|rfl|rfl|rfl|rfl <;> decide

theorem hcnqm_not_digit {c : Char} (h : isHCNQM c = true) :
    isDigitC c = false := by
  rcases isHCNQM_cases h with rfl|rfl|rfl|rfl|rfl <;> decide

theorem hcnqm_not_dash {c : Char} (h : isHCNQM c = true) : c ≠ '-' := by
  rcases isHCNQM_cases h with rfl|rfl|rfl|rfl|rfl <;> decide

theorem hcnqm_not_qmark {c : Char} (h : isHCNQM c = true) : c ≠ '?' := by
  rcases isHCNQM_cases h with rfl|rfl|rfl|rfl|rfl <;> decide

theorem digitC_isDigit : ∀ n : ℕ, isDigitC (digitC n) = true
  | 0 => by decide
  | 1 => by decide
  | 2 => by decide
  | 3 => by decide
  | 4 => by decide
  | 5 => by decide
  | 6 => by decide
  | 7 => by decide
  | 8 => by decide
  | 9 => by decide
  | _ + 10 => by show isDigitC '0' = true; decide

theorem val_digitC (n : ℕ) (h : n < 10) : (digitC n).toNat - 48 = n := by
  interval_cases n <;> decide

theorem natCharsAux_fuel {n : ℕ} :
    ∀ {f1 f2 : ℕ}, n < f1 → n < f2 → natCharsAux f1 n = natCharsAux f2 n := by
  induction n using Nat.strong_induction_on with
  | _ n ih =>
      intro f1 f2 h1 h2
      cases f1 with
      | zero => omega
      | succ g1 =>
          cases f2 with
          | zero => omega
          | succ g2 =>
              simp only [natCharsAux]
              by_cases hn : n < 10
              · simp [hn]
              · simp only [hn, if_false]
                congr 1
                have hdiv : n / 10 < n := Nat.div_lt_self (by omega) (by omega)
                exact ih (n / 10) hdiv (by omega) (by omega)

theorem natChars_unfold (n : ℕ) :
    natChars n =
      if n < 10 then [digitC n] else natChars (n / 10) ++ [digitC (n % 10)] := by
  show natCharsAux (n + 1) n = _
  rw [natCharsAux]
  by_cases hn : n < 10
  · simp [hn]
  · simp only [hn, if_false]
    congr 1
    have hdiv : n / 10 < n := Nat.div_lt_self (by omega) (by omega)
    exact natCharsAux_fuel (by omega) (by omega)

theorem natChars_ne_nil (n : ℕ) : natChars n ≠ [] := by
  rw [natChars_unfold]
  by_cases hn : n < 10
  · simp [hn]
  · simp [hn]

theorem natChars_digits (n : ℕ) : ∀ c ∈ natChars n, isDigitC c = true := by
  induction n using Nat.strong_induction_on with
  | _ n ih =>
      intro c hc
      rw [natChars_unfold] at hc
      by_cases hn : n < 10
      · rw [if_pos hn] at hc
        simp only [List.mem_singleton] at hc
        subst hc
        exact digitC_isDigit n
      · rw [if_neg hn] at hc
        rcases List.mem_append.mp hc with h | h
        · have hdiv : n / 10 < n := Nat.div_lt_self (by omega) (by omega)
          exact ih (n / 10) hdiv c h
        · simp only [List.mem_singleton] at h
          subst h
          exact digitC_isDigit (n % 10)

theorem ofDigits_append_one (l : List Char) (c : Char) :
    ofDigits (l ++ [c]) = 10 * ofDigits l + (c.toNat - 48) := by
  unfold ofDigits
  rw [List.foldl_append]
  rfl

theorem ofDigits_natChars (n : ℕ) : ofDigits (natChars n) = n := by
  induction n using Nat.strong_induction_on with
  | _ n ih =>
      rw [natChars_unfold]
      by_cases hn : n < 10
      · rw [if_pos hn]
        show 10 * 0 + ((digitC n).toNat - 48) = n
        rw [val_digitC n hn]
        omega
      · rw [if_neg hn, ofDigits_append_one]
        have hdiv : n / 10 < n := Nat.div_lt_self (by omega) (by omega)
        rw [ih (n / 10) hdiv, val_digitC (n % 10) (by omega)]
        omega

/-! ### `findIdx?` and `takeWhile` decompositions -/

theorem findIdx?_of_all_false {p : Char → Bool} {l : List Char}
    (h : ∀ c ∈ l, p c = false) : l.findIdx? p = none :=
  List.findIdx?_eq_none_iff.mpr h

theorem findIdx?_spec (p : Char → Bool) (A : List Char) (b : Char)
    (B : List Char) (hA : ∀ c ∈ A, p c = false) (hb : p b = true) :
    (A ++ b :: B).findIdx? p = some A.length := by
  induction A with
  | nil =>
      rw [List.nil_append, List.findIdx?_cons, if_pos hb]
      rfl
  | cons a as ih =>
      rw [List.cons_append, List.findIdx?_cons,
        if_neg (by rw [hA a (List.mem_cons_self a as)]; simp),
        List.findIdx?_succ,
        ih (fun c hc => hA c (List.mem_cons_of_mem a hc))]
      rfl

theorem findIdx?_decomp {p : Char → Bool} :
    ∀ {l : List Char} {i : ℕ}, l.findIdx? p = some i →
      ∃ A b B, l = A ++ b :: B ∧ A.length = i ∧
        (∀ c ∈ A, p c = false) ∧ p b = true := by
  intro l
  induction l with
  | nil => intro i h; rw [List.findIdx?_nil] at h; cases h
  | cons a as ih =>
      intro i h
      rw [List.findIdx?_cons] at h
      by_cases ha : p a
      · rw [if_pos ha] at h
        cases h
        exact ⟨[], a, as, rfl, rfl, by simp, ha⟩
      · rw [if_neg ha, List.findIdx?_succ] at h
        rcases hfi : as.findIdx? p with _ | j
        · rw [hfi] at h
          cases h
        · rw [hfi] at h
          obtain rfl : j + 1 = i := Option.some.inj h
          obtain ⟨A, b, B, hsplit, hlen, hAf, hbt⟩ := ih hfi
          refine ⟨a :: A, b, B, by rw [hsplit]; rfl, by simp [hlen], ?_, hbt⟩
          intro c hc
          rcases List.mem_cons.mp hc with rfl | hmem
          · simpa using ha
          · exact hAf c hmem

theorem takeWhile_append_of {p : Char → Bool} {A : List Char}
    (hA : ∀ c ∈ A, p c = true) :
    ∀ B : List Char, (A ++ B).takeWhile p = A ++ B.takeWhile p := by
  intro B
  induction A with
  | nil => rfl
  | cons a as ih =>
      rw [List.cons_append, List.takeWhile_cons,
        if_pos (hA a (List.mem_cons_self a as)),
        ih (fun c hc => hA c (List.mem_cons_of_mem a hc))]
      rfl

theorem takeWhile_cons_false {p : Char → Bool} {b : Char} (B : List Char)
    (hb : p b = false) : (b :: B).takeWhile p = [] := by
  rw [List.takeWhile_cons, if_neg (by rw [hb]; simp)]

theorem dropWhile_append_of {p : Char → Bool} {A : List Char}
    (hA : ∀ c ∈ A, p c = true) :
    ∀ B : List Char, (A ++ B).dropWhile p = B.dropWhile p := by
  intro B
  induction A with
  | nil => rfl
  | cons a as ih =>
      rw [List.cons_append, List.dropWhile_cons,
        if_pos (hA a (List.mem_cons_self a as))]
      exact ih (fun c hc => hA c (List.mem_cons_of_mem a hc))

theorem dropWhile_head_false {p : Char → Bool} :
    ∀ {l : List Char} {c : Char} {cs : List Char},
      l.dropWhile p = c :: cs → p c = false := by
  intro l
  induction l with
  | nil => intro c cs h; cases h
  | cons a as ih =>
      intro c cs h
      rw [List.dropWhile_cons] at h
      by_cases ha : p a
      · rw [if_pos ha] at h
        exact ih h
      · rw [if_neg ha] at h
        cases h
        simpa using ha

theorem getLast?_dropWhile {p : Char → Bool} :
    ∀ {l : List Char}, l.dropWhile p ≠ [] →
      (l.dropWhile p).getLast? = l.getLast? := by
  intro l
  induction l with
  | nil => intro h; simp at h
  | cons a as ih =>
      intro h
      by_cases ha : p a
      · have hd : (a :: as).dropWhile p = as.dropWhile p := by
          rw [List.dropWhile_cons, if_pos ha]
        rw [hd] at h ⊢
        rw [ih h]
        have has : as ≠ [] := by
          rintro rfl
          simp at h
        cases as with
        | nil => exact absurd rfl has
        | cons b bs => rw [List.getLast?_cons_cons]
      · rw [List.dropWhile_cons, if_neg ha]

theorem dropWhile_append_ne {p : Char → Bool} {A : List Char}
    (hA : A.dropWhile p ≠ []) (B : List Char) :
    (A ++ B).dropWhile p = A.dropWhile p ++ B := by
  induction A with
  | nil => simp at hA
  | cons a as ih =>
      rw [List.cons_append, List.dropWhile_cons]
      by_cases ha : p a
      · rw [if_pos ha]
        rw [List.dropWhile_cons, if_pos ha] at hA
        rw [ih hA]
        rw [List.dropWhile_cons, if_pos ha]
      · rw [if_neg ha]
        rw [List.dropWhile_cons, if_neg ha]
        rfl

theorem dropWhile_ne_nil_of_mem {p : Char → Bool} {l : List Char} {c : Char}
    (hc : c ∈ l) (hp : p c = false) : l.dropWhile p ≠ [] := by
  induction l with
  | nil => cases hc
  | cons a as ih =>
      rw [List.dropWhile_cons]
      by_cases ha : p a
      · rw [if_pos ha]
        rcases List.mem_cons.mp hc with rfl | hmem
        · rw [hp] at ha
          cases ha
        · exact ih hmem
      · rw [if_neg ha]
        exact List.cons_ne_nil a as

theorem mem_of_mem_dropWhile {p : Char → Bool} {l : List Char} {c : Char}
    (h : c ∈ l.dropWhile p) : c ∈ l := by
  induction l with
  | nil => simpa using h
  | cons a as ih =>
      rw [List.dropWhile_cons] at h
      by_cases ha : p a
      · rw [if_pos ha] at h
        exact List.mem_cons_of_mem a (ih h)
      · rw [if_neg ha] at h
        exact h

theorem mem_of_mem_takeWhile {p : Char → Bool} {l : List Char} {c : Char}
    (h : c ∈ l.takeWhile p) : c ∈ l := by
  induction l with
  | nil => simpa using h
  | cons a as ih =>
      rw [List.takeWhile_cons] at h
      by_cases ha : p a
      · rw [if_pos ha] at h
        rcases List.mem_cons.mp h with rfl | hmem
        · exact List.mem_cons_self c as
        · exact List.mem_cons_of_mem a (ih hmem)
      · rw [if_neg ha] at h
        cases h

theorem mem_takeWhile_pred {p : Char → Bool} {l : List Char} {c : Char}
    (h : c ∈ l.takeWhile p) : p c = true := by
  induction l with
  | nil => simpa using h
  | cons a as ih =>
      rw [List.takeWhile_cons] at h
      by_cases ha : p a
      · rw [if_pos ha] at h
        rcases List.mem_cons.mp h with rfl | hmem
        · exact ha
        · exact ih hmem
      · rw [if_neg ha] at h
        cases h

theorem upperL_eq_self_of {l : List Char} (h : ∀ c ∈ l, toUpperC c = c) :
    upperL l = l := by
  unfold upperL
  conv_rhs => rw [← List.map_id l]
  exact List.map_congr_left (fun c hc => h c hc)

theorem mem_upper_fixed {l : List Char} (h : upperL l = l) :
    ∀ c ∈ l, toUpperC c = c := by
  induction l with
  | nil => intro c hc; cases hc
  | cons a as ih =>
      intro c hc
      have h' : toUpperC a :: upperL as = a :: as := h
      have h1 : toUpperC a = a := (List.cons.inj h').1
      have h2 : upperL as = as := (List.cons.inj h').2
      rcases List.mem_cons.mp hc with rfl | hmem
      · exact h1
      · exact ih h2 c hmem

theorem mem_pyNorm {l : List Char} {c : Char} (h : c ∈ pyNorm l)
    (hfix : ∀ c ∈ l, toUpperC c = c) : c ∈ l := by
  unfold pyNorm upperL at h
  obtain ⟨c₀, hc₀, hmap⟩ := List.mem_map.mp h
  have hmem : c₀ ∈ l := by
    unfold stripL frontStrip at hc₀
    have h1 := List.mem_reverse.mp hc₀
    have h2 := mem_of_mem_dropWhile h1
    have h3 := List.mem_reverse.mp h2
    exact mem_of_mem_dropWhile h3
  rw [hfix c₀ hmem] at hmap
  subst hmap
  exact hmem

/-! ### Lookup-table lemmas (`AAA_TO_A`, `CORRECT_ATOM_NAME`, `STANDARD`) -/

theorem lkp_mem {T : List (List Char × List Char)} {k v : List Char}
    (h : lkp T k = some v) : (k, v) ∈ T := by
  induction T with
  | nil => cases h
  | cons p rest ih =>
      obtain ⟨k', v'⟩ := p
      rw [lkp] at h
      by_cases hk : k' = k
      · rw [if_pos hk] at h
        cases h
        rw [hk]
        exact List.mem_cons_self _ _
      · rw [if_neg hk] at h
        exact List.mem_cons_of_mem _ (ih h)

theorem aaaGet_of_none {l : List Char} (h : lkp AAA l = none) :
    aaaGet l = l := by
  unfold aaaGet
  rw [h]

theorem aaaGet_cases (l : List Char) :
    aaaGet l = l ∨ (l, aaaGet l) ∈ AAA := by
  rcases h : lkp AAA l with _ | v
  · exact Or.inl (aaaGet_of_none h)
  · right
    have : aaaGet l = v := by unfold aaaGet; rw [h]
    rw [this]
    exact lkp_mem h

theorem aaaGet_idem (l : List Char) : aaaGet (aaaGet l) = aaaGet l := by
  rcases aaaGet_cases l with h | h
  · rw [h, h]
  · have hfact : ∀ p ∈ AAA, lkp AAA p.2 = none := by decide
    exact aaaGet_of_none (hfact _ h)

theorem aaaGet_digit_free {l : List Char}
    (h : ∀ c ∈ l, isDigitC c = false) :
    ∀ c ∈ aaaGet l, isDigitC c = false := by
  rcases aaaGet_cases l with heq | hmem
  · rw [heq]; exact h
  · have hfact : ∀ p ∈ AAA, ∀ c ∈ p.2, isDigitC c = false := by decide
    exact hfact _ hmem

theorem aaaGet_hcnqm_free {l : List Char}
    (h : ∀ c ∈ l, isHCNQM c = false) :
    ∀ c ∈ aaaGet l, isHCNQM c = false := by
  rcases aaaGet_cases l with heq | hmem
  · rw [heq]; exact h
  · have hfact : ∀ p ∈ AAA,
        (∀ c ∈ p.1, isHCNQM c = false) → ∀ c ∈ p.2, isHCNQM c = false := by
      decide
    exact hfact _ hmem (by
      have : l = (l, aaaGet l).1 := rfl
      exact h)

theorem aaaGet_normal {l : List Char} (h : normal l) : normal (aaaGet l) := by
  rcases aaaGet_cases l with heq | hmem
  · rw [heq]; exact h
  · have hfact : ∀ p ∈ AAA, pyNorm p.2 = p.2 := by decide
    exact hfact _ hmem

theorem aaaGet_ne_nil {l : List Char} (h : l ≠ []) : aaaGet l ≠ [] := by
  rcases aaaGet_cases l with heq | hmem
  · rw [heq]; exact h
  · have hfact : ∀ p ∈ AAA, p.2 ≠ [] := by decide
    exact hfact _ hmem

theorem aaaGet_dash_free {l : List Char} (h : '-' ∉ l) : '-' ∉ aaaGet l := by
  rcases aaaGet_cases l with heq | hmem
  · rw [heq]; exact h
  · have hfact : ∀ p ∈ AAA, '-' ∉ p.2 := by decide
    exact hfact _ hmem

theorem correctAtom_of_none {l : List Char} (h : lkp CORRECT l = none) :
    correctAtom l = l := by
  unfold correctAtom
  rw [h]

theorem correctAtom_cases (l : List Char) :
    correctAtom l = l ∨ (l, correctAtom l) ∈ CORRECT := by
  rcases h : lkp CORRECT l with _ | v
  · exact Or.inl (correctAtom_of_none h)
  · right
    have : correctAtom l = v := by unfold correctAtom; rw [h]
    rw [this]
    exact lkp_mem h

theorem correctAtom_idem (l : List Char) :
    correctAtom (correctAtom l) = correctAtom l := by
  rcases correctAtom_cases l with h | h
  · rw [h, h]
  · have hfact : ∀ p ∈ CORRECT, lkp CORRECT p.2 = none := by decide
    exact correctAtom_of_none (hfact _ h)

theorem correctAtom_normal {l : List Char} (h : normal l) :
    normal (correctAtom l) := by
  rcases correctAtom_cases l with heq | hmem
  · rw [heq]; exact h
  · have hfact : ∀ p ∈ CORRECT, pyNorm p.2 = p.2 := by decide
    exact hfact _ hmem

theorem correctAtom_dash_free {l : List Char} (h : '-' ∉ l) :
    '-' ∉ correctAtom l := by
  rcases correctAtom_cases l with heq | hmem
  · rw [heq]; exact h
  · have hfact : ∀ p ∈ CORRECT, '-' ∉ p.2 := by decide
    exact hfact _ hmem

theorem correctAtom_head_hcnqm {l : List Char} {c : Char} {cs : List Char}
    (h : l = c :: cs) (hc : isHCNQM c = true) :
    ∃ d ds, correctAtom l = d :: ds ∧ isHCNQM d = true := by
  rcases correctAtom_cases l with heq | hmem
  · rw [heq, h]
    exact ⟨c, cs, rfl, hc⟩
  · have hfact : ∀ p ∈ CORRECT,
        p.2 ≠ [] ∧ isHCNQM (p.2.headD 'A') = true := by decide
    obtain ⟨hne, hd⟩ := hfact _ hmem
    rcases hv : (l, correctAtom l).2 with _ | ⟨d, ds⟩
    · exact absurd hv hne
    · refine ⟨d, ds, hv, ?_⟩
      rw [hv] at hd
      exact hd

theorem correctAtom_digit_free {l : List Char}
    (h : ∀ c ∈ l, isDigitC c = false) :
    ∀ c ∈ correctAtom l, isDigitC c = false := by
  rcases correctAtom_cases l with heq | hmem
  · rw [heq]; exact h
  · have hfact : ∀ p ∈ CORRECT, ∀ c ∈ p.2, isDigitC c = false := by decide
    exact hfact _ hmem

theorem standard_not_correct_key {l : List Char} (h : l ∈ STANDARD) :
    correctAtom l = l := by
  have hfact : ∀ s ∈ STANDARD, lkp CORRECT s = none := by decide
  exact correctAtom_of_none (hfact _ h)

theorem standard_head_hcnqm {l : List Char} (h : l ∈ STANDARD) :
    ∃ c cs, l = c :: cs ∧ isHCNQM c = true := by
  have hfact : ∀ s ∈ STANDARD, s ≠ [] ∧ isHCNQM (s.headD 'A') = true := by
    decide
  obtain ⟨hne, hd⟩ := hfact _ h
  rcases hv : l with _ | ⟨c, cs⟩
  · exact absurd hv hne
  · refine ⟨c, cs, rfl, ?_⟩
    rw [hv] at hd
    exact hd

theorem not_standard_of_hcnqm_free {l : List Char}
    (h : ∀ c ∈ l, isHCNQM c = false) : l ∉ STANDARD := by
  intro hmem
  obtain ⟨c, cs, heq, hc⟩ := standard_head_hcnqm hmem
  have : isHCNQM c = false := h c (by rw [heq]; exact List.mem_cons_self c cs)
  rw [hc] at this
  cases this

/-! ### Shape lemmas for `mkGroup`, `mkAtom` and `splitGroupAtom` -/

theorem mkAtom_name (raw : List Char) :
    (mkAtom raw).name = correctAtom (pyNorm raw) := rfl

theorem mkAtom_nil : mkAtom [] = ⟨[]⟩ := by decide

theorem mkGroup_nil_name : (mkGroup []).name = [] := by decide

theorem mkGroup_no_digit {raw : List Char}
    (h : (pyNorm raw).findIdx? isDigitC = none) :
    mkGroup raw = ⟨aaaGet (pyNorm raw), noNumber, [],
      aaaGet (pyNorm raw)⟩ := by
  unfold mkGroup
  rw [h]
  simp [groupName]

theorem nat_ne_noNumber (n : ℕ) : ((n : ℕ) : ℤ) ≠ noNumber := by
  have : (0 : ℤ) ≤ (n : ℤ) := Int.natCast_nonneg n
  unfold noNumber
  omega

theorem intChars_natCast (n : ℕ) : intChars ((n : ℕ) : ℤ) = natChars n := by
  unfold intChars
  rw [if_neg (by omega : ¬((n : ℕ) : ℤ) < 0)]
  norm_num

theorem groupName_natCast (sym : List Char) (n : ℕ) (suf : List Char) :
    groupName sym ((n : ℕ) : ℤ) suf = sym ++ natChars n ++ suf := by
  unfold groupName
  rw [if_neg (nat_ne_noNumber n), intChars_natCast]

theorem mkGroup_digit {raw A R S : List Char}
    (hdecomp : pyNorm raw = A ++ (R ++ S))
    (hA : ∀ c ∈ A, isDigitC c = false)
    (hR : ∀ c ∈ R, isDigitC c = true)
    (hRne : R ≠ [])
    (hS : ∀ c ∈ S.head?, isDigitC c = false) :
    mkGroup raw = ⟨aaaGet A, ((ofDigits R : ℕ) : ℤ), S,
      aaaGet A ++ (natChars (ofDigits R) ++ S)⟩ := by
  obtain ⟨r, rs, hRcons⟩ : ∃ r rs, R = r :: rs := by
    cases R with
    | nil => exact absurd rfl hRne
    | cons r rs => exact ⟨r, rs, rfl⟩
  have hfi : (pyNorm raw).findIdx? isDigitC = some A.length := by
    rw [hdecomp, hRcons, List.cons_append]
    exact findIdx?_spec isDigitC A r (rs ++ S) hA
      (hR r (by rw [hRcons]; exact List.mem_cons_self r rs))
  have hdrop : (pyNorm raw).drop A.length = R ++ S := by
    rw [hdecomp]
    exact List.drop_left A (R ++ S)
  have htake : (pyNorm raw).take A.length = A := by
    rw [hdecomp]
    exact List.take_left A (R ++ S)
  have hrun : ((pyNorm raw).drop A.length).takeWhile isDigitC = R := by
    rw [hdrop, takeWhile_append_of hR]
    cases hSc : S with
    | nil => simp
    | cons s ss =>
        rw [takeWhile_cons_false ss (by rw [hSc] at hS; exact hS s rfl)]
        simp
  have hsuf : (pyNorm raw).drop (A.length + R.length) = S := by
    rw [hdecomp, ← List.append_assoc, ← List.length_append]
    exact List.drop_left (A ++ R) S
  unfold mkGroup
  rw [hfi]
  simp only
  rw [hrun, htake, hsuf, groupName_natCast, List.append_assoc]

theorem splitGroupAtom_split {u : List Char} (hq : u ≠ ['?']) {k : ℕ}
    (hk : (u.drop ((u.findIdx? isDigitC).getD 0)).findIdx? isHCNQM = some k) :
    splitGroupAtom u =
      (mkGroup (u.take ((u.findIdx? isDigitC).getD 0 + k)),
        mkAtom (u.drop ((u.findIdx? isDigitC).getD 0 + k))) := by
  unfold splitGroupAtom
  rw [if_neg hq, hk]

theorem splitGroupAtom_standard {u : List Char} (hq : u ≠ ['?'])
    (hk : (u.drop ((u.findIdx? isDigitC).getD 0)).findIdx? isHCNQM = none)
    (hstd : u ∈ STANDARD) :
    splitGroupAtom u = (mkGroup [], mkAtom u) := by
  unfold splitGroupAtom
  rw [if_neg hq, hk]
  simp only [if_pos hstd]

theorem splitGroupAtom_group {u : List Char} (hq : u ≠ ['?'])
    (hk : (u.drop ((u.findIdx? isDigitC).getD 0)).findIdx? isHCNQM = none)
    (hstd : u ∉ STANDARD) :
    splitGroupAtom u = (mkGroup u, mkAtom []) := by
  unfold splitGroupAtom
  rw [if_neg hq, hk]
  simp only [if_neg hstd]

theorem mem_of_getLast?M {l : List Char} {a : Char} (h : a ∈ l.getLast?) :
    a ∈ l := by
  rw [← List.head?_reverse] at h
  exact List.mem_reverse.mp (List.mem_of_mem_head? h)

theorem getLast?_append_right {A B : List Char} (h : B ≠ []) :
    (A ++ B).getLast? = B.getLast? := by
  rw [← List.head?_reverse, ← List.head?_reverse B, List.reverse_append]
  cases hB : B.reverse with
  | nil =>
      exfalso
      apply h
      have := congrArg List.reverse hB
      simpa using this
  | cons c cs => simp

theorem head?_append_left {A B : List Char} (h : A ≠ []) :
    (A ++ B).head? = A.head? := by
  cases A with
  | nil => exact absurd rfl h
  | cons a as => simp

/-- The AAA replacement values consist of well-behaved characters. -/
theorem AAA_values_good :
    ∀ p ∈ AAA, ∀ c ∈ p.2, isWSChar c = false ∧ toUpperC c = c ∧
      isDigitC c = false ∧ c ≠ '-' := by decide

/-- The CORRECT replacement values consist of well-behaved characters. -/
theorem CORRECT_values_good :
    ∀ p ∈ CORRECT, ∀ c ∈ p.2, isWSChar c = false ∧ toUpperC c = c ∧
      isDigitC c = false ∧ c ≠ '-' ∧ isHCNQM c = true := by decide

/-- Stripping and uppercasing `A ++ P` keeps `A` and the head of `P` intact
when all characters are uppercase-fixed, the first character is not
whitespace, and `P` starts with a non-whitespace character; the remainder of
the result is drawn from the tail of `P`. -/
theorem pyNorm_append_keep {A : List Char} {b : Char} {ptail : List Char}
    (hfix : ∀ c ∈ A ++ b :: ptail, toUpperC c = c)
    (hhead : ∀ c ∈ (A ++ b :: ptail).head?, isWSChar c = false)
    (hb : isWSChar b = false) :
    ∃ P', pyNorm (A ++ b :: ptail) = A ++ b :: P' ∧ ∀ x ∈ P', x ∈ ptail := by
  have hfs : frontStrip (A ++ b :: ptail) = A ++ b :: ptail :=
    frontStrip_of_head hhead
  have hne : (ptail.reverse ++ [b]).dropWhile isWSChar ≠ [] :=
    dropWhile_ne_nil_of_mem (by simp) hb
  have hMform : ∃ M₀, (ptail.reverse ++ [b]).dropWhile isWSChar = M₀ ++ [b] ∧
      ∀ x ∈ M₀, x ∈ ptail.reverse := by
    by_cases h0 : ptail.reverse.dropWhile isWSChar = []
    · refine ⟨[], ?_, by simp⟩
      have hall : ∀ c ∈ ptail.reverse, isWSChar c = true :=
        List.dropWhile_eq_nil_iff.mp h0
      rw [dropWhile_append_of hall [b], List.dropWhile_cons,
        if_neg (by rw [hb]; simp)]
      rfl
    · exact ⟨ptail.reverse.dropWhile isWSChar,
        dropWhile_append_ne h0 [b], fun x hx => mem_of_mem_dropWhile hx⟩
  obtain ⟨M₀, hMeq, hM₀⟩ := hMform
  have hstrip : stripL (A ++ b :: ptail) = A ++ b :: M₀.reverse := by
    unfold stripL
    rw [hfs, List.reverse_append, List.reverse_cons]
    show (frontStrip ((ptail.reverse ++ [b]) ++ A.reverse)).reverse = _
    rw [show frontStrip ((ptail.reverse ++ [b]) ++ A.reverse) =
        (ptail.reverse ++ [b]).dropWhile isWSChar ++ A.reverse from
      dropWhile_append_ne hne A.reverse]
    rw [hMeq, List.reverse_append, List.reverse_append, List.reverse_reverse]
    simp
  refine ⟨M₀.reverse, ?_, ?_⟩
  · show upperL (stripL (A ++ b :: ptail)) = _
    rw [hstrip]
    apply upperL_eq_self_of
    intro c hc
    apply hfix
    rcases List.mem_append.mp hc with h | h
    · exact List.mem_append_left _ h
    · rcases List.mem_cons.mp h with rfl | h
      · exact List.mem_append_right _ (List.mem_cons_self _ _)
      · have h1 : c ∈ M₀ := List.mem_reverse.mp h
        have h2 : c ∈ ptail := List.mem_reverse.mp (hM₀ c h1)
        exact List.mem_append_right _ (List.mem_cons_of_mem _ h2)
  · intro x hx
    have h1 : x ∈ M₀ := List.mem_reverse.mp hx
    exact List.mem_reverse.mp (hM₀ x h1)

theorem digit_not_qmark {c : Char} (h : isDigitC c = true) : c ≠ '?' := by
  rcases isDigitC_cases h with rfl|rfl|rfl|rfl|rfl|rfl|rfl|rfl|rfl|rfl <;> decide

theorem aaaGet_ne_qmark {l : List Char} (h : l ≠ ['?']) :
    aaaGet l ≠ ['?'] := by
  rcases aaaGet_cases l with heq | hmem
  · rw [heq]; exact h
  · have hfact : ∀ p ∈ AAA, p.2 ≠ ['?'] := by decide
    exact hfact _ hmem

theorem aaaGet_upper_fixed {l : List Char} (h : ∀ c ∈ l, toUpperC c = c) :
    ∀ c ∈ aaaGet l, toUpperC c = c := by
  rcases aaaGet_cases l with heq | hmem
  · rw [heq]; exact h
  · intro c hc
    exact (AAA_values_good _ hmem c hc).2.1

theorem aaaGet_head_not_ws {l : List Char}
    (h : ∀ c ∈ l.head?, isWSChar c = false) :
    ∀ c ∈ (aaaGet l).head?, isWSChar c = false := by
  rcases aaaGet_cases l with heq | hmem
  · rw [heq]; exact h
  · intro c hc
    exact (AAA_values_good _ hmem c (List.mem_of_mem_head? hc)).1

theorem aaaGet_last_not_ws {l : List Char}
    (h : ∀ c ∈ l.getLast?, isWSChar c = false) :
    ∀ c ∈ (aaaGet l).getLast?, isWSChar c = false := by
  rcases aaaGet_cases l with heq | hmem
  · rw [heq]; exact h
  · intro c hc
    exact (AAA_values_good _ hmem c (mem_of_getLast?M hc)).1

theorem natChars_head_not_ws (n : ℕ) :
    ∀ c ∈ (natChars n).head?, isWSChar c = false := fun c hc =>
  digit_not_ws (natChars_digits n c (List.mem_of_mem_head? hc))

theorem natChars_last_not_ws (n : ℕ) :
    ∀ c ∈ (natChars n).getLast?, isWSChar c = false := fun c hc =>
  digit_not_ws (natChars_digits n c (mem_of_getLast?M hc))

/-- Normality of a constructed group name `sym ++ digits ++ suffix`. -/
theorem normal_symNumSuf {sym S : List Char} (n : ℕ)
    (hfix_sym : ∀ c ∈ sym, toUpperC c = c)
    (hfix_S : ∀ c ∈ S, toUpperC c = c)
    (hhead : ∀ c ∈ sym.head?, isWSChar c = false)
    (hSlast : ∀ c ∈ S.getLast?, isWSChar c = false) :
    normal (sym ++ (natChars n ++ S)) := by
  apply normal_mk
  · apply upperL_eq_self_of
    intro c hc
    rcases List.mem_append.mp hc with h | h
    · exact hfix_sym c h
    · rcases List.mem_append.mp h with h | h
      · exact digit_upper (natChars_digits n c h)
      · exact hfix_S c h
  · intro c hc
    cases hsym : sym with
    | nil =>
        rw [hsym, List.nil_append] at hc
        rw [head?_append_left (natChars_ne_nil n)] at hc
        exact natChars_head_not_ws n c hc
    | cons a as =>
        rw [hsym] at hc
        rw [head?_append_left (List.cons_ne_nil a as)] at hc
        rw [← hsym] at hc
        exact hhead c hc
  · intro c hc
    cases hS : S with
    | nil =>
        rw [hS] at hc
        rw [List.append_nil] at hc
        rw [getLast?_append_right (natChars_ne_nil n)] at hc
        exact natChars_last_not_ws n c hc
    | cons s ss =>
        rw [hS] at hc
        rw [getLast?_append_right (by simp : natChars n ++ s :: ss ≠ []),
          getLast?_append_right (List.cons_ne_nil s ss)] at hc
        rw [← hS] at hc
        exact hSlast c hc

/-- A character list containing an HCNQM character is not the token `?`. -/
theorem ne_qmark_of_hcnqm_mem {w : List Char} {d : Char} (hd : isHCNQM d = true)
    (hmem : d ∈ w) : w ≠ ['?'] := by
  intro heq
  rw [heq] at hmem
  simp only [List.mem_singleton] at hmem
  exact hcnqm_not_qmark hd hmem

/-- A character list containing a digit is not the token `?`. -/
theorem ne_qmark_of_digit_mem {w : List Char} {d : Char} (hd : isDigitC d = true)
    (hmem : d ∈ w) : w ≠ ['?'] := by
  intro heq
  rw [heq] at hmem
  simp only [List.mem_singleton] at hmem
  exact digit_not_qmark hd hmem

/-- Re-parsing a printed group name of the digit-bearing form: the same name
comes back. -/
theorem groupName_reparse_digit {sym S : List Char} {n : ℕ}
    (hsymD : ∀ c ∈ sym, isDigitC c = false)
    (hSH : ∀ c ∈ S, isHCNQM c = false)
    (hSD : ∀ c ∈ S.head?, isDigitC c = false)
    (hidem : aaaGet sym = sym)
    (hnorm : normal (sym ++ (natChars n ++ S))) :
    normTok (sym ++ (natChars n ++ S)) = sym ++ (natChars n ++ S) := by
  obtain ⟨e, es, hnc⟩ : ∃ e es, natChars n = e :: es := by
    cases h : natChars n with
    | nil => exact absurd h (natChars_ne_nil n)
    | cons e es => exact ⟨e, es, rfl⟩
  have hdig : isDigitC e = true :=
    natChars_digits n e (by rw [hnc]; exact List.mem_cons_self e es)
  have hq : sym ++ (natChars n ++ S) ≠ ['?'] :=
    ne_qmark_of_digit_mem hdig
      (List.mem_append_right _ (List.mem_append_left _
        (by rw [hnc]; exact List.mem_cons_self e es)))
  have hfd : (sym ++ (natChars n ++ S)).findIdx? isDigitC = some sym.length := by
    rw [hnc, List.cons_append]
    exact findIdx?_spec isDigitC sym e (es ++ S) hsymD hdig
  have hdrop : (sym ++ (natChars n ++ S)).drop sym.length = natChars n ++ S :=
    List.drop_left sym (natChars n ++ S)
  have hhcnqm : (natChars n ++ S).findIdx? isHCNQM = none := by
    apply findIdx?_of_all_false
    intro c hc
    rcases List.mem_append.mp hc with h | h
    · exact digit_not_hcnqm (natChars_digits n c h)
    · exact hSH c h
  have hgd : (sym ++ (natChars n ++ S)).drop
      (((sym ++ (natChars n ++ S)).findIdx? isDigitC).getD 0) =
      natChars n ++ S := by
    rw [hfd]
    exact hdrop
  have hkey : ((sym ++ (natChars n ++ S)).drop
      (((sym ++ (natChars n ++ S)).findIdx? isDigitC).getD 0)).findIdx?
        isHCNQM = none := by
    rw [hgd]
    exact hhcnqm
  by_cases hstd : sym ++ (natChars n ++ S) ∈ STANDARD
  · rw [normTok, splitGroupAtom_standard hq hkey hstd]
    simp only [mkGroup_nil_name, mkAtom_name, List.nil_append]
    rw [hnorm, standard_not_correct_key hstd]
  · rw [normTok, splitGroupAtom_group hq hkey hstd]
    rw [mkGroup_digit (by rw [hnorm])
      hsymD (natChars_digits n) (natChars_ne_nil n) hSD]
    show aaaGet sym ++ (natChars (ofDigits (natChars n)) ++ S) ++ (mkAtom []).name =
      sym ++ (natChars n ++ S)
    rw [hidem, ofDigits_natChars, mkAtom_nil]
    exact List.append_nil _

/-- Re-parsing a printed group name of the digit-free form: the same name
comes back. -/
theorem groupName_reparse_nodigit {v : List Char}
    (hD : ∀ c ∈ v, isDigitC c = false)
    (hH : ∀ c ∈ v, isHCNQM c = false)
    (hidem : aaaGet v = v)
    (hnorm : normal v)
    (hq : v ≠ ['?']) :
    normTok v = v := by
  have hfd : v.findIdx? isDigitC = none := findIdx?_of_all_false hD
  have hkey : (v.drop ((v.findIdx? isDigitC).getD 0)).findIdx? isHCNQM =
      none := by
    rw [hfd]
    show (v.drop 0).findIdx? isHCNQM = none
    rw [List.drop_zero]
    exact findIdx?_of_all_false hH
  rw [normTok, splitGroupAtom_group hq hkey (not_standard_of_hcnqm_free hH)]
  rw [mkGroup_no_digit (by rw [hnorm]; exact hfd)]
  show aaaGet (pyNorm v) ++ (mkAtom []).name = v
  rw [hnorm, hidem, mkAtom_nil]
  exact List.append_nil _

/-- The digit run at the head of a list starting with a digit. -/
theorem digit_run_split {b : Char} (B : List Char) (hb : isDigitC b = true) :
    ∃ R S, b :: B = R ++ S ∧ (∀ c ∈ R, isDigitC c = true) ∧ R ≠ [] ∧
      (∀ c ∈ S.head?, isDigitC c = false) ∧ ∀ c ∈ S, c ∈ b :: B := by
  refine ⟨(b :: B).takeWhile isDigitC, (b :: B).dropWhile isDigitC,
    (List.takeWhile_append_dropWhile isDigitC (b :: B)).symm,
    fun c hc => mem_takeWhile_pred hc, ?_, ?_,
    fun c hc => mem_of_mem_dropWhile hc⟩
  · rw [List.takeWhile_cons_of_pos hb]
    exact List.cons_ne_nil _ _
  · intro c hc
    cases hS : (b :: B).dropWhile isDigitC with
    | nil => rw [hS] at hc; cases hc
    | cons x xs =>
        rw [hS] at hc
        simp only [List.head?_cons, Option.mem_def, Option.some.injEq] at hc
        subst hc
        exact dropWhile_head_false hS

/-- A well-formed digit-bearing group name is a fixed point of `mkGroup`. -/
theorem mkGroupName_digit_stable {sym S : List Char} {m : ℕ}
    (hsymD : ∀ c ∈ sym, isDigitC c = false)
    (hSD : ∀ c ∈ S.head?, isDigitC c = false)
    (hidem : aaaGet sym = sym)
    (hnorm : normal (sym ++ (natChars m ++ S))) :
    (mkGroup (sym ++ (natChars m ++ S))).name = sym ++ (natChars m ++ S) := by
  rw [mkGroup_digit (show pyNorm (sym ++ (natChars m ++ S)) = _ from hnorm)
    hsymD (natChars_digits m) (natChars_ne_nil m) hSD]
  show aaaGet sym ++ (natChars (ofDigits (natChars m)) ++ S) =
    sym ++ (natChars m ++ S)
  rw [hidem, ofDigits_natChars]

/-- A well-formed digit-free group name is a fixed point of `mkGroup`. -/
theorem mkGroupName_nodigit_stable {v : List Char}
    (hD : ∀ c ∈ v, isDigitC c = false)
    (hidem : aaaGet v = v)
    (hnorm : normal v) :
    (mkGroup v).name = v := by
  rw [mkGroup_no_digit (by rw [hnorm]; exact findIdx?_of_all_false hD)]
  show aaaGet (pyNorm v) = v
  rw [hnorm, hidem]

/-- On an already-normalised name `mkAtom` reduces to the spelling
correction. -/
theorem mkAtomName_stable {v : List Char} (hnorm : normal v) :
    (mkAtom v).name = correctAtom v := by
  rw [mkAtom_name, hnorm]

/-- Re-parsing `sym ++ atom` where `sym` is a digit-free, HCNQM-free group
name and the atom text starts with an HCNQM letter: the token survives. -/
theorem mixed_reparse_nodigit {sym : List Char} {d : Char} {ds : List Char}
    (hsymD : ∀ c ∈ sym, isDigitC c = false)
    (hsymH : ∀ c ∈ sym, isHCNQM c = false)
    (haD : ∀ c ∈ d :: ds, isDigitC c = false)
    (hd : isHCNQM d = true)
    (hidem : aaaGet sym = sym)
    (hnorm_sym : normal sym)
    (hnorm_a : normal (d :: ds))
    (ha_idem : correctAtom (d :: ds) = d :: ds) :
    normTok (sym ++ d :: ds) = sym ++ d :: ds := by
  have hq : sym ++ d :: ds ≠ ['?'] :=
    ne_qmark_of_hcnqm_mem hd (List.mem_append_right _ (List.mem_cons_self d ds))
  have hfd : (sym ++ d :: ds).findIdx? isDigitC = none := by
    apply findIdx?_of_all_false
    intro c hc
    rcases List.mem_append.mp hc with h | h
    · exact hsymD c h
    · exact haD c h
  have hfa : ((sym ++ d :: ds).drop
      (((sym ++ d :: ds).findIdx? isDigitC).getD 0)).findIdx? isHCNQM =
      some sym.length := by
    rw [hfd, Option.getD_none, List.drop_zero]
    exact findIdx?_spec isHCNQM sym d ds hsymH hd
  rw [normTok, splitGroupAtom_split hq hfa]
  rw [hfd, Option.getD_none, Nat.zero_add, List.take_left, List.drop_left]
  show (mkGroup sym).name ++ (mkAtom (d :: ds)).name = sym ++ d :: ds
  rw [mkGroupName_nodigit_stable hsymD hidem hnorm_sym,
    mkAtomName_stable hnorm_a, ha_idem]

/-- Re-parsing a digit-bearing group name followed by an atom text starting
with an HCNQM letter: the token survives. -/
theorem mixed_reparse_digit {sym S : List Char} {m : ℕ} {d : Char}
    {ds : List Char}
    (hsymD : ∀ c ∈ sym, isDigitC c = false)
    (hSH : ∀ c ∈ S, isHCNQM c = false)
    (hSD : ∀ c ∈ S.head?, isDigitC c = false)
    (hd : isHCNQM d = true)
    (hidem : aaaGet sym = sym)
    (hnorm_g : normal (sym ++ (natChars m ++ S)))
    (hnorm_a : normal (d :: ds))
    (ha_idem : correctAtom (d :: ds) = d :: ds) :
    normTok ((sym ++ (natChars m ++ S)) ++ d :: ds) =
      (sym ++ (natChars m ++ S)) ++ d :: ds := by
  obtain ⟨e, es, hnc⟩ : ∃ e es, natChars m = e :: es := by
    cases h : natChars m with
    | nil => exact absurd h (natChars_ne_nil m)
    | cons e es => exact ⟨e, es, rfl⟩
  have hdig : isDigitC e = true :=
    natChars_digits m e (by rw [hnc]; exact List.mem_cons_self e es)
  have hq : (sym ++ (natChars m ++ S)) ++ d :: ds ≠ ['?'] :=
    ne_qmark_of_digit_mem hdig
      (List.mem_append_left _ (List.mem_append_right _
        (List.mem_append_left _ (by rw [hnc]; exact List.mem_cons_self e es))))
  have hw : (sym ++ (natChars m ++ S)) ++ d :: ds =
      sym ++ e :: ((es ++ S) ++ d :: ds) := by
    rw [hnc]
    simp [List.append_assoc]
  have hfd : ((sym ++ (natChars m ++ S)) ++ d :: ds).findIdx? isDigitC =
      some sym.length := by
    rw [hw]
    exact findIdx?_spec isDigitC sym e ((es ++ S) ++ d :: ds) hsymD hdig
  have hdrop1 : ((sym ++ (natChars m ++ S)) ++ d :: ds).drop sym.length =
      (natChars m ++ S) ++ d :: ds := by
    rw [List.append_assoc]
    exact List.drop_left sym _
  have hpre : ∀ c ∈ natChars m ++ S, isHCNQM c = false := by
    intro c hc
    rcases List.mem_append.mp hc with h | h
    · exact digit_not_hcnqm (natChars_digits m c h)
    · exact hSH c h
  have hfa : (((sym ++ (natChars m ++ S)) ++ d :: ds).drop
      ((((sym ++ (natChars m ++ S)) ++ d :: ds).findIdx? isDigitC).getD
        0)).findIdx? isHCNQM = some (natChars m ++ S).length := by
    rw [hfd, Option.getD_some, hdrop1]
    exact findIdx?_spec isHCNQM (natChars m ++ S) d ds hpre hd
  have htake : ((sym ++ (natChars m ++ S)) ++ d :: ds).take
      (sym.length + (natChars m ++ S).length) = sym ++ (natChars m ++ S) := by
    rw [← List.length_append]
    exact List.take_left _ _
  have hdrop2 : ((sym ++ (natChars m ++ S)) ++ d :: ds).drop
      (sym.length + (natChars m ++ S).length) = d :: ds := by
    rw [← List.length_append]
    exact List.drop_left _ _
  rw [normTok, splitGroupAtom_split hq hfa]
  rw [hfd, Option.getD_some, htake, hdrop2]
  show (mkGroup (sym ++ (natChars m ++ S))).name ++ (mkAtom (d :: ds)).name =
    (sym ++ (natChars m ++ S)) ++ d :: ds
  rw [mkGroupName_digit_stable hsymD hSD hidem hnorm_g,
    mkAtomName_stable hnorm_a, ha_idem]

/-- A normalised, hyphen-free single token is a fixed point of token
normalisation, and the printed token is again normalised and hyphen-free. -/
theorem normTok_idem {u : List Char} (hu : normal u) (hdash : '-' ∉ u) :
    normTok (normTok u) = normTok u ∧ normal (normTok u) ∧
      '-' ∉ normTok u := by
  by_cases hq : u = ['?']
  · subst hq
    exact ⟨by decide,
      show pyNorm (normTok ['?']) = normTok ['?'] by decide, by decide⟩
  · have hfix : ∀ c ∈ u, toUpperC c = c := mem_upper_fixed (normal_upperL_eq hu)
    rcases hfa : (u.drop ((u.findIdx? isDigitC).getD 0)).findIdx? isHCNQM
      with _ | k
    · -- no HCNQM letter from the first digit on: no atom part
      by_cases hstd : u ∈ STANDARD
      · -- a standard atom name parses as a pure atom and is kept verbatim
        have htok : normTok u = u := by
          rw [normTok, splitGroupAtom_standard hq hfa hstd]
          show (mkGroup []).name ++ (mkAtom u).name = u
          rw [mkGroup_nil_name, mkAtom_name, hu,
            standard_not_correct_key hstd, List.nil_append]
        rw [htok]
        exact ⟨htok, hu, hdash⟩
      · rcases hfd : u.findIdx? isDigitC with _ | s
        · -- pure group, digit-free
          have hDfree : ∀ c ∈ u, isDigitC c = false :=
            List.findIdx?_eq_none_iff.mp hfd
          have hfa2 := hfa
          rw [hfd, Option.getD_none, List.drop_zero] at hfa2
          have hHfree : ∀ c ∈ u, isHCNQM c = false :=
            List.findIdx?_eq_none_iff.mp hfa2
          have htok : normTok u = aaaGet u := by
            rw [normTok, splitGroupAtom_group hq hfa hstd,
              mkGroup_no_digit (by rw [hu]; exact hfd), mkAtom_nil]
            show aaaGet (pyNorm u) ++ [] = aaaGet u
            rw [hu, List.append_nil]
          have h1 : normTok (aaaGet u) = aaaGet u :=
            groupName_reparse_nodigit (aaaGet_digit_free hDfree)
              (aaaGet_hcnqm_free hHfree) (aaaGet_idem u) (aaaGet_normal hu)
              (aaaGet_ne_qmark hq)
          rw [htok]
          exact ⟨h1, aaaGet_normal hu, aaaGet_dash_free hdash⟩
        · -- pure group with a digit run
          obtain ⟨A, b, B, hsplit, hlen, hA, hb⟩ := findIdx?_decomp hfd
          have hudrop : u.drop s = b :: B := by
            rw [hsplit, ← hlen]
            exact List.drop_left _ _
          obtain ⟨R, S, hRS, hR, hRne, hSD, hSsub⟩ := digit_run_split B hb
          have huRS : u = A ++ (R ++ S) := by rw [hsplit, hRS]
          have hSmemU : ∀ c ∈ S, c ∈ u := by
            intro c hc
            rw [hsplit]
            exact List.mem_append_right A (hSsub c hc)
          have hAmemU : ∀ c ∈ A, c ∈ u := by
            intro c hc
            rw [hsplit]
            exact List.mem_append_left _ hc
          have hfa2 := hfa
          rw [hfd, Option.getD_some, hudrop] at hfa2
          have hbBH : ∀ c ∈ b :: B, isHCNQM c = false :=
            List.findIdx?_eq_none_iff.mp hfa2
          have hSH : ∀ c ∈ S, isHCNQM c = false :=
            fun c hc => hbBH c (hSsub c hc)
          have hAhead : ∀ c ∈ A.head?, isWSChar c = false := by
            cases A with
            | nil => intro c hc; cases hc
            | cons a as =>
                intro c hc
                simp only [List.head?_cons, Option.mem_def,
                  Option.some.injEq] at hc
                subst hc
                apply normal_head hu
                rw [hsplit]
                rfl
          have hSlastU : ∀ c ∈ S.getLast?, isWSChar c = false := by
            intro c hc
            have hSne : S ≠ [] := by
              intro h
              rw [h] at hc
              cases hc
            apply normal_last hu
            rw [huRS, ← List.append_assoc, getLast?_append_right hSne]
            exact hc
          have hnormw : normal (aaaGet A ++ (natChars (ofDigits R) ++ S)) :=
            normal_symNumSuf (ofDigits R)
              (aaaGet_upper_fixed (fun c hc => hfix c (hAmemU c hc)))
              (fun c hc => hfix c (hSmemU c hc))
              (aaaGet_head_not_ws hAhead) hSlastU
          have htok : normTok u =
              aaaGet A ++ (natChars (ofDigits R) ++ S) := by
            rw [normTok, splitGroupAtom_group hq hfa hstd]
            show (mkGroup u).name ++ (mkAtom []).name = _
            rw [mkGroup_digit (show pyNorm u = A ++ (R ++ S) by
                rw [hu]; exact huRS) hA hR hRne hSD, mkAtom_nil]
            exact List.append_nil _
          have h1 : normTok (aaaGet A ++ (natChars (ofDigits R) ++ S)) =
              aaaGet A ++ (natChars (ofDigits R) ++ S) :=
            groupName_reparse_digit (aaaGet_digit_free hA) hSH hSD
              (aaaGet_idem A) hnormw
          have hdashw : '-' ∉ aaaGet A ++ (natChars (ofDigits R) ++ S) := by
            intro hmem
            rcases List.mem_append.mp hmem with h | h
            · exact aaaGet_dash_free (fun h2 => hdash (hAmemU _ h2)) h
            · rcases List.mem_append.mp h with h | h
              · exact digit_not_dash (natChars_digits _ _ h) rfl
              · exact hdash (hSmemU _ h)
          rw [htok]
          exact ⟨h1, hnormw, hdashw⟩
    · -- an HCNQM letter is found: the token splits into group and atom
      rcases hfd : u.findIdx? isDigitC with _ | s
      · -- digit-free token: the group part is the HCNQM-free prefix
        have hDfree : ∀ c ∈ u, isDigitC c = false :=
          List.findIdx?_eq_none_iff.mp hfd
        have hfa2 := hfa
        rw [hfd, Option.getD_none, List.drop_zero] at hfa2
        obtain ⟨C, e, D, hsplit, hClen, hC, he⟩ := findIdx?_decomp hfa2
        have htakeC : u.take k = C := by
          rw [hsplit, ← hClen]
          exact List.take_left _ _
        have hdropC : u.drop k = e :: D := by
          rw [hsplit, ← hClen]
          exact List.drop_left _ _
        have heD_memU : ∀ c ∈ e :: D, c ∈ u := by
          intro c hc
          rw [hsplit]
          exact List.mem_append_right _ hc
        have hnorm_a : normal (e :: D) := by
          apply normal_mk
          · exact upperL_eq_self_of (fun c hc => hfix c (heD_memU c hc))
          · intro c hc
            simp only [List.head?_cons, Option.mem_def,
              Option.some.injEq] at hc
            subst hc
            exact hcnqm_not_ws he
          · intro c hc
            apply normal_last hu
            rw [hsplit, getLast?_append_right (List.cons_ne_nil e D)]
            exact hc
        obtain ⟨d, ds, hcorr, hd⟩ := correctAtom_head_hcnqm rfl he
        have hCmemU : ∀ c ∈ C, c ∈ u := by
          intro c hc
          rw [hsplit]
          exact List.mem_append_left _ hc
        have hCfix : ∀ c ∈ C, toUpperC c = c := fun c hc => hfix c (hCmemU c hc)
        have hpCD : ∀ c ∈ pyNorm C, isDigitC c = false :=
          fun c hc => hDfree c (hCmemU c (mem_pyNorm hc hCfix))
        have hpCH : ∀ c ∈ pyNorm C, isHCNQM c = false :=
          fun c hc => hC c (mem_pyNorm hc hCfix)
        have hnorm_d : normal (d :: ds) := by
          rw [← hcorr]
          exact correctAtom_normal hnorm_a
        have htok : normTok u = aaaGet (pyNorm C) ++ d :: ds := by
          rw [normTok, splitGroupAtom_split hq hfa]
          rw [hfd, Option.getD_none, Nat.zero_add, htakeC, hdropC]
          show (mkGroup C).name ++ (mkAtom (e :: D)).name = _
          rw [mkGroup_no_digit (findIdx?_of_all_false hpCD),
            mkAtomName_stable hnorm_a, hcorr]
        have haD : ∀ c ∈ d :: ds, isDigitC c = false := by
          have h2 : ∀ c ∈ e :: D, isDigitC c = false :=
            fun c hc => hDfree c (heD_memU c hc)
          have h3 := correctAtom_digit_free h2
          rw [hcorr] at h3
          exact h3
        have h1 : normTok (aaaGet (pyNorm C) ++ d :: ds) =
            aaaGet (pyNorm C) ++ d :: ds :=
          mixed_reparse_nodigit (aaaGet_digit_free hpCD)
            (aaaGet_hcnqm_free hpCH) haD hd (aaaGet_idem _)
            (aaaGet_normal (normal_pyNorm C)) hnorm_d
            (by rw [← hcorr]; exact correctAtom_idem _)
        have hnormw : normal (aaaGet (pyNorm C) ++ d :: ds) :=
          normal_append (aaaGet_normal (normal_pyNorm C)) hnorm_d
        have hdashw : '-' ∉ aaaGet (pyNorm C) ++ d :: ds := by
          intro hmem
          rcases List.mem_append.mp hmem with h | h
          · exact aaaGet_dash_free
              (fun h2 => hdash (hCmemU _ (mem_pyNorm h2 hCfix))) h
          · have h2 : '-' ∉ correctAtom (e :: D) :=
              correctAtom_dash_free (fun h2 => hdash (heD_memU _ h2))
            rw [hcorr] at h2
            exact h2 h
        rw [htok]
        exact ⟨h1, hnormw, hdashw⟩
      · -- digit and HCNQM letter: group then atom
        obtain ⟨A, b, B, hsplit, hlen, hA, hb⟩ := findIdx?_decomp hfd
        have hutake : u.take s = A := by
          rw [hsplit, ← hlen]
          exact List.take_left _ _
        have hudrop : u.drop s = b :: B := by
          rw [hsplit, ← hlen]
          exact List.drop_left _ _
        have hfa2 := hfa
        rw [hfd, Option.getD_some, hudrop] at hfa2
        obtain ⟨C, e, D, hCsplit, hClen, hC, he⟩ := findIdx?_decomp hfa2
        cases C with
        | nil =>
            exfalso
            rw [List.nil_append] at hCsplit
            obtain ⟨hbe, hBD⟩ := (List.cons.injEq b B e D).mp hCsplit
            rw [hbe] at hb
            rw [digit_not_hcnqm hb] at he
            cases he
        | cons c0 C' =>
            obtain ⟨hbc0, hBeq⟩ :=
              (List.cons.injEq b B c0 (C' ++ e :: D)).mp hCsplit
            subst hbc0
            subst hBeq
            have hXsplit : u = (A ++ b :: C') ++ e :: D := by
              rw [hsplit]
              simp [List.append_assoc]
            have htakeK : (b :: (C' ++ e :: D)).take k = b :: C' := by
              rw [← hClen]
              show ((b :: C') ++ e :: D).take (b :: C').length = b :: C'
              exact List.take_left _ _
            have htakeX : u.take (s + k) = A ++ b :: C' := by
              rw [List.take_add, hutake, hudrop, htakeK]
            have hdropK : (b :: (C' ++ e :: D)).drop k = e :: D := by
              rw [← hClen]
              show ((b :: C') ++ e :: D).drop (b :: C').length = e :: D
              exact List.drop_left _ _
            have hdropX : u.drop (s + k) = e :: D := by
              rw [← List.drop_drop, hudrop, hdropK]
            have hXne : A ++ b :: C' ≠ [] := by simp
            have hXfix : ∀ c ∈ A ++ b :: C', toUpperC c = c := by
              intro c hc
              apply hfix
              rw [hXsplit]
              exact List.mem_append_left _ hc
            have hXhead : ∀ c ∈ (A ++ b :: C').head?, isWSChar c = false := by
              intro c hc
              apply normal_head hu
              rw [hXsplit, head?_append_left hXne]
              exact hc
            obtain ⟨P', hkeep, hPsub⟩ :=
              pyNorm_append_keep hXfix hXhead (digit_not_ws hb)
            obtain ⟨R, S, hRS, hR, hRne, hSD, hSsub⟩ := digit_run_split P' hb
            have hkeep2 : pyNorm (A ++ b :: C') = A ++ (R ++ S) := by
              rw [hkeep, hRS]
            have hmkX : (mkGroup (A ++ b :: C')).name =
                aaaGet A ++ (natChars (ofDigits R) ++ S) := by
              rw [mkGroup_digit hkeep2 hA hR hRne hSD]
            have heD_memU : ∀ c ∈ e :: D, c ∈ u := by
              intro c hc
              rw [hXsplit]
              exact List.mem_append_right _ hc
            have hnorm_a : normal (e :: D) := by
              apply normal_mk
              · exact upperL_eq_self_of (fun c hc => hfix c (heD_memU c hc))
              · intro c hc
                simp only [List.head?_cons, Option.mem_def,
                  Option.some.injEq] at hc
                subst hc
                exact hcnqm_not_ws he
              · intro c hc
                apply normal_last hu
                rw [hXsplit, getLast?_append_right (List.cons_ne_nil e D)]
                exact hc
            obtain ⟨d, ds, hcorr, hd⟩ := correctAtom_head_hcnqm rfl he
            have htok : normTok u =
                (aaaGet A ++ (natChars (ofDigits R) ++ S)) ++ d :: ds := by
              rw [normTok, splitGroupAtom_split hq hfa]
              rw [hfd, Option.getD_some, htakeX, hdropX]
              show (mkGroup (A ++ b :: C')).name ++ (mkAtom (e :: D)).name = _
              rw [hmkX, mkAtomName_stable hnorm_a, hcorr]
            have hbPC : ∀ c ∈ b :: P', c ∈ b :: C' := by
              intro c hc
              rcases List.mem_cons.mp hc with h | h
              · rw [h]
                exact List.mem_cons_self b C'
              · exact List.mem_cons_of_mem b (hPsub c h)
            have hbC_memU : ∀ c ∈ b :: C', c ∈ u := by
              intro c hc
              rw [hXsplit]
              exact List.mem_append_left _ (List.mem_append_right A hc)
            have hSH : ∀ c ∈ S, isHCNQM c = false :=
              fun c hc => hC c (hbPC c (hSsub c hc))
            have hA_memU : ∀ c ∈ A, c ∈ u := by
              intro c hc
              rw [hXsplit]
              exact List.mem_append_left _ (List.mem_append_left _ hc)
            have hAhead : ∀ c ∈ A.head?, isWSChar c = false := by
              cases A with
              | nil => intro c hc; cases hc
              | cons a as =>
                  intro c hc
                  simp only [List.head?_cons, Option.mem_def,
                    Option.some.injEq] at hc
                  subst hc
                  apply normal_head hu
                  rw [hXsplit]
                  rfl
            have hSlastU : ∀ c ∈ S.getLast?, isWSChar c = false := by
              intro c hc
              have hSne : S ≠ [] := by
                intro h
                rw [h] at hc
                cases hc
              apply normal_last (normal_pyNorm (A ++ b :: C'))
              rw [hkeep2, ← List.append_assoc, getLast?_append_right hSne]
              exact hc
            have hSfix : ∀ c ∈ S, toUpperC c = c :=
              fun c hc => hfix c (hbC_memU c (hbPC c (hSsub c hc)))
            have hnormg : normal (aaaGet A ++ (natChars (ofDigits R) ++ S)) :=
              normal_symNumSuf (ofDigits R)
                (aaaGet_upper_fixed (fun c hc => hfix c (hA_memU c hc)))
                hSfix (aaaGet_head_not_ws hAhead) hSlastU
            have hnorm_d : normal (d :: ds) := by
              rw [← hcorr]
              exact correctAtom_normal hnorm_a
            have h1 : normTok ((aaaGet A ++ (natChars (ofDigits R) ++ S)) ++
                d :: ds) = (aaaGet A ++ (natChars (ofDigits R) ++ S)) ++
                d :: ds :=
              mixed_reparse_digit (aaaGet_digit_free hA) hSH hSD hd
                (aaaGet_idem A) hnormg hnorm_d
                (by rw [← hcorr]; exact correctAtom_idem _)
            have hnormw : normal ((aaaGet A ++ (natChars (ofDigits R) ++ S)) ++
                d :: ds) := normal_append hnormg hnorm_d
            have hdashw : '-' ∉ (aaaGet A ++ (natChars (ofDigits R) ++ S)) ++
                d :: ds := by
              intro hmem
              rcases List.mem_append.mp hmem with h | h
              · rcases List.mem_append.mp h with h | h
                · exact aaaGet_dash_free (fun h2 => hdash (hA_memU _ h2)) h
                · rcases List.mem_append.mp h with h | h
                  · exact digit_not_dash (natChars_digits _ _ h) rfl
                  · exact hdash (hbC_memU _ (hbPC _ (hSsub _ h)))
              · have h2 : '-' ∉ correctAtom (e :: D) :=
                  correctAtom_dash_free (fun h2 => hdash (heD_memU _ h2))
                rw [hcorr] at h2
                exact h2 h
            rw [htok]
            exact ⟨h1, hnormw, hdashw⟩

theorem splitDash_no_dash {u : List Char} (h : '-' ∉ u) :
    splitDash u = [u] := by
  induction u with
  | nil => rfl
  | cons c cs ih =>
      have hc : ¬c = '-' := fun hc => h (by rw [hc]; exact List.mem_cons_self _ _)
      have hcs : '-' ∉ cs := fun h2 => h (List.mem_cons_of_mem c h2)
      simp only [splitDash, if_neg hc, ih hcs]

theorem parseSpinSystem_single {u : List Char} (hd : '-' ∉ u) (hne : u ≠ []) :
    parseSpinSystem u = [('i', mkSpin u none)] := by
  rw [parseSpinSystem, if_neg hne, splitDash_no_dash hd]
  rfl

/-- With no carry-over group the parsed group is exactly the split result in
both branches of the inheritance test. -/
theorem mkSpinGroup_none (raw : List Char) :
    mkSpinGroup raw none = (splitGroupAtom (pyNorm raw)).1 := by
  rw [mkSpinGroup]
  split <;> rfl

/-- A single spin whose cached name is its group name followed by its atom
name prints as that concatenation (whether or not the group is blank). -/
theorem spins2name_single (s : Spin)
    (hname : s.name = s.group.name ++ s.atom.name) :
    spins2name [s] = s.group.name ++ s.atom.name := by
  rw [spins2name]
  show List.intercalate ['-']
    [if s.group.name = (mkGroup []).name then s.atom.name else s.name] = _
  by_cases hg : s.group.name = (mkGroup []).name
  · rw [if_pos hg]
    rw [mkGroup_nil_name] at hg
    rw [hg, List.nil_append]
    simp [List.intercalate]
  · rw [if_neg hg, hname]
    simp [List.intercalate]

/-- Parsing a hyphen-free label produces the single-token normalised name. -/
theorem mkSpinSystem_single {raw u : List Char} (hraw : pyNorm raw = u)
    (hd : '-' ∉ u) :
    (mkSpinSystem raw).name = normTok u := by
  have hu : pyNorm u = u := by
    have h2 := normal_pyNorm raw
    rw [hraw] at h2
    exact h2
  by_cases hne : u = []
  · show spins2name ((parseSpinSystem (pyNorm raw)).map (·.2)) = normTok u
    rw [hraw, hne]
    decide
  · show spins2name ((parseSpinSystem (pyNorm raw)).map (·.2)) = normTok u
    rw [hraw, parseSpinSystem_single hd hne]
    show spins2name [mkSpin u none] = normTok u
    rw [spins2name_single (mkSpin u none) rfl]
    show (mkSpinGroup u none).name ++ (splitGroupAtom (pyNorm u)).2.name =
      normTok u
    rw [mkSpinGroup_none u, hu]
    rfl

/-- C8 (amended): for every hyphen-free (single-spin) label, the parsed name
is a fixed point of parsing: building a `SpinSystem` from the name of the
`SpinSystem` parsed from the label reproduces that name, across
normalisation (strip/uppercase, three-letter amino-acid codes to one
letter, atom-name correction, and number renormalisation). -/
theorem c8_single_token_idempotent (label : List Char)
    (h : '-' ∉ pyNorm label) :
    (mkSpinSystem (mkSpinSystem label).name).name =
      (mkSpinSystem label).name := by
  have h1 : (mkSpinSystem label).name = normTok (pyNorm label) :=
    mkSpinSystem_single rfl h
  obtain ⟨hidem, hnorm2, hdash2⟩ := normTok_idem (normal_pyNorm label) h
  have h2 : (mkSpinSystem (normTok (pyNorm label))).name =
      normTok (normTok (pyNorm label)) :=
    mkSpinSystem_single hnorm2 hdash2
  rw [h1, h2, hidem]

/-- Witness for C8 at the concrete single-spin label `gly023hn`. -/
theorem c8_single_token_idempotent_witness :
    '-' ∉ pyNorm "gly023hn".data ∧
      (mkSpinSystem (mkSpinSystem "gly023hn".data).name).name =
        (mkSpinSystem "gly023hn".data).name :=
  ⟨by decide, c8_single_token_idempotent "gly023hn".data (by decide)⟩

end ChemEx
